import Mathlib

/-!
Verification of the mcp-tls tool-integrity core against its specification.

The development shallowly embeds the Go sources:
  * the canonical-JSON hashing substrate (`canonicalizeJson`,
    `generateSchemaFingerprint`, `generateToolChecksum`) and the
    tamper-evident `ToolRegistry` (package `mcp`, tools file),
  * the older registry variant embedded in `pkg/mcp/hash.go`,
  * the schema validators (`ValidateToolInputSchema`, `ValidateToolOutput`),
  * the hidden-Unicode detector (`pkg/validate/text.go`),
  * the secure envelope (`Secure` / `ValidateAndOpen`, `tls/sign.go`).

Modelling conventions:
  * Go `json.RawMessage` values are Lean `String`s; `""` models a nil slice.
  * JSON documents are parsed into an order-insensitive value type `Json`
    (objects are key-sorted maps, mirroring Go's `map[string]any` plus the
    deterministic lexicographic key order of `encoding/json.Marshal`).
    The modelled JSON subset uses integer numbers and escape-free strings;
    all claims and witnesses live inside this subset.
  * External library primitives that the repository calls but does not
    implement (SHA-256, AES-GCM, HMAC, the gojsonschema engine) are
    parameters of the embedding; theorems quantify over them, stating the
    library contract they rely on (e.g. determinism or injectivity) as an
    explicit hypothesis.
-/

namespace MCPTLS

/-! ## JSON value model

Mirrors the `any` value produced by Go's `json.Unmarshal` in
`canonicalizeJson` (mcp tools file and pkg/mcp/hash.go): objects are maps,
so key order is erased on decode, and `json.Marshal` re-emits object keys
in sorted order.  `Json.obj` therefore keeps its fields sorted; the parser
below inserts fields in sorted order exactly like a map. -/

mutual

inductive Json where
  | null : Json
  | bool (b : Bool) : Json
  | num (n : Int) : Json
  | str (s : String) : Json
  | arr (elems : JsonList) : Json
  | obj (fields : JsonFields) : Json
deriving DecidableEq

inductive JsonList where
  | nil : JsonList
  | cons (hd : Json) (tl : JsonList) : JsonList
deriving DecidableEq

inductive JsonFields where
  | nil : JsonFields
  | cons (key : String) (val : Json) (tl : JsonFields) : JsonFields
deriving DecidableEq

end

/-- Byte-order comparison on characters (Go compares strings bytewise;
UTF-8 byte order coincides with code-point order). -/
def charLt (a b : Char) : Bool := a.toNat < b.toNat

def charListLt : List Char → List Char → Bool
  | [], [] => false
  | [], _ :: _ => true
  | _ :: _, [] => false
  | a :: as, b :: bs =>
    if charLt a b then true
    else if charLt b a then false
    else charListLt as bs

/-- Go's `<` on strings (bytewise), used by `encoding/json` to sort map
keys on marshal. -/
def strLt (a b : String) : Bool := charListLt a.data b.data

/-- Insert a binding into a key-sorted field list, overwriting an existing
binding with the same key: the map semantics of Go's `map[string]any`. -/
def JsonFields.insert (k : String) (v : Json) : JsonFields → JsonFields
  | .nil => .cons k v .nil
  | .cons k' v' rest =>
    if k = k' then .cons k' v rest
    else if strLt k k' then .cons k v (.cons k' v' rest)
    else .cons k' v' (rest.insert k v)

def mkObjAux : JsonFields → JsonFields → JsonFields
  | acc, .nil => acc
  | acc, .cons k v rest => mkObjAux (acc.insert k v) rest

/-- Build the map for an object literal from its fields in textual order:
a later duplicate key overwrites an earlier one, as in Go. -/
def mkObj (fs : JsonFields) : JsonFields := mkObjAux .nil fs

/-! ## Serializer

Models `json.Marshal` applied to the decoded `any` value: compact output,
object keys already sorted (the parser keeps them sorted), integers
printed in decimal, strings quoted verbatim (the modelled subset has no
characters needing escapes). -/

def digitChar : Nat → Char
  | 0 => '0'
  | 1 => '1'
  | 2 => '2'
  | 3 => '3'
  | 4 => '4'
  | 5 => '5'
  | 6 => '6'
  | 7 => '7'
  | 8 => '8'
  | _ => '9'

def natToDigitsAux : Nat → Nat → List Char
  | 0, _ => []
  | fuel+1, n => if n < 10 then [digitChar n] else natToDigitsAux fuel (n / 10) ++ [digitChar (n % 10)]

def natToDigits (n : Nat) : List Char := natToDigitsAux (n + 1) n

/-- Decimal rendering of an integer, as Go's encoder prints a whole
number. -/
def intToString (n : Int) : String :=
  if n < 0 then "-" ++ ⟨natToDigits (-n).toNat⟩ else ⟨natToDigits n.toNat⟩

mutual

def Json.serialize : Json → String
  | .null => "null"
  | .bool true => "true"
  | .bool false => "false"
  | .num n => intToString n
  | .str s => "\"" ++ s ++ "\""
  | .arr elems => "[" ++ elems.serializeElems ++ "]"
  | .obj fields => "\x7b" ++ fields.serializeFields ++ "\x7d"

def JsonList.serializeElems : JsonList → String
  | .nil => ""
  | .cons v .nil => v.serialize
  | .cons v rest => v.serialize ++ "," ++ rest.serializeElems

def JsonFields.serializeFields : JsonFields → String
  | .nil => ""
  | .cons k v .nil => "\"" ++ k ++ "\":" ++ v.serialize
  | .cons k v rest => "\"" ++ k ++ "\":" ++ v.serialize ++ "," ++ rest.serializeFields

end

/-! ## Parser

Models `json.Unmarshal(data, &obj)` for `obj : any` on the modelled
subset: whitespace-insensitive, objects decoded into maps (field order
erased, later duplicate key wins), trailing garbage rejected. -/

def isWsChar (c : Char) : Bool := c = ' ' || c = '\t' || c = '\n' || c = '\r'

def skipWs : List Char → List Char
  | [] => []
  | c :: cs => if isWsChar c then skipWs cs else c :: cs

def scanString : List Char → Option (List Char × List Char)
  | [] => none
  | c :: cs =>
    if c = '"' then some ([], cs)
    else match scanString cs with
      | none => none
      | some (s, rest) => some (c :: s, rest)

def takeDigits : List Char → List Char × List Char
  | [] => ([], [])
  | c :: cs =>
    if c.isDigit then
      let (ds, rest) := takeDigits cs
      (c :: ds, rest)
    else ([], c :: cs)

def digitsToNat (ds : List Char) : Nat :=
  ds.foldl (fun acc c => 10 * acc + (c.toNat - 48)) 0

def parseNumber : List Char → Option (Int × List Char)
  | '-' :: cs =>
    match takeDigits cs with
    | ([], _) => none
    | (ds, rest) => some (-(digitsToNat ds : Int), rest)
  | cs =>
    match takeDigits cs with
    | ([], _) => none
    | (ds, rest) => some ((digitsToNat ds : Int), rest)

mutual

def parseVal : Nat → List Char → Option (Json × List Char)
  | 0, _ => none
  | fuel+1, cs =>
    match skipWs cs with
    | 'n' :: 'u' :: 'l' :: 'l' :: rest => some (.null, rest)
    | 't' :: 'r' :: 'u' :: 'e' :: rest => some (.bool true, rest)
    | 'f' :: 'a' :: 'l' :: 's' :: 'e' :: rest => some (.bool false, rest)
    | '"' :: rest =>
      match scanString rest with
      | some (s, rest') => some (.str ⟨s⟩, rest')
      | none => none
    | '[' :: rest =>
      match skipWs rest with
      | ']' :: rest' => some (.arr .nil, rest')
      | rest' =>
        match parseElems fuel rest' with
        | some (elems, rest'') => some (.arr elems, rest'')
        | none => none
    | '{' :: rest =>
      match skipWs rest with
      | '}' :: rest' => some (.obj .nil, rest')
      | rest' =>
        match parseFields fuel rest' with
        | some (fields, rest'') => some (.obj (mkObj fields), rest'')
        | none => none
    | cs' =>
      match parseNumber cs' with
      | some (n, rest) => some (.num n, rest)
      | none => none

def parseElems : Nat → List Char → Option (JsonList × List Char)
  | 0, _ => none
  | fuel+1, cs =>
    match parseVal fuel cs with
    | none => none
    | some (v, rest) =>
      match skipWs rest with
      | ',' :: rest' =>
        match parseElems fuel rest' with
        | some (vs, rest'') => some (.cons v vs, rest'')
        | none => none
      | ']' :: rest' => some (.cons v .nil, rest')
      | _ => none

def parseFields : Nat → List Char → Option (JsonFields × List Char)
  | 0, _ => none
  | fuel+1, cs =>
    match skipWs cs with
    | '"' :: rest =>
      match scanString rest with
      | none => none
      | some (k, rest1) =>
        match skipWs rest1 with
        | ':' :: rest2 =>
          match parseVal fuel rest2 with
          | none => none
          | some (v, rest3) =>
            match skipWs rest3 with
            | ',' :: rest4 =>
              match parseFields fuel rest4 with
              | some (fs, rest5) => some (.cons ⟨k⟩ v fs, rest5)
              | none => none
            | '}' :: rest4 => some (.cons ⟨k⟩ v .nil, rest4)
            | _ => none
        | _ => none
    | _ => none

end

/-- Full-document decode: the whole input must be consumed up to trailing
whitespace, as `json.Unmarshal` requires. -/
def parseJson (s : String) : Option Json :=
  match parseVal (2 * s.length + 2) s.data with
  | some (v, rest) => if (skipWs rest).isEmpty then some v else none
  | none => none

/-- Source: `canonicalizeJson` (identical in the mcp tools file and in
pkg/mcp/hash.go): `json.Unmarshal` into `any`, then `json.Marshal` back;
a decode failure is returned as an error and the raw bytes are never
passed through.  (`json.Marshal` of a decoded value cannot fail.) -/
def canonicalizeJson (data : String) : Except String String :=
  match parseJson data with
  | none => .error "invalid JSON"
  | some v => .ok v.serialize

/-- C6: determinism and key-order insensitivity of canonicalization.
Two well-formed documents that decode to the same structural value (in
particular: same keys and values, different key order or whitespace)
canonicalize to byte-identical output, and a malformed document yields an
error instead of passing the raw bytes through. -/
theorem canonicalizeJson_deterministic_and_fails_closed
    (S1 S2 bad : String) (v : Json)
    (h1 : parseJson S1 = some v) (h2 : parseJson S2 = some v)
    (hbad : parseJson bad = none) :
    canonicalizeJson S1 = .ok v.serialize ∧
    canonicalizeJson S1 = canonicalizeJson S2 ∧
    canonicalizeJson bad = .error "invalid JSON" := by
  unfold canonicalizeJson
  rw [h1, h2, hbad]
  exact ⟨rfl, rfl, rfl⟩

/-- C6 witness: the two reorderings of `{"a":1,"b":2}` used in the
repository's own test (`TestCanonicalJson`) canonicalize identically, and
a malformed input is rejected. -/
theorem canonicalizeJson_deterministic_witness :
    parseJson "\x7b\"b\": 2, \"a\": 1\x7d" =
      some (.obj (.cons "a" (.num 1) (.cons "b" (.num 2) .nil))) ∧
    parseJson "\x7b\"a\":1,\"b\":2\x7d" =
      some (.obj (.cons "a" (.num 1) (.cons "b" (.num 2) .nil))) ∧
    parseJson "not json" = none ∧
    canonicalizeJson "\x7b\"b\": 2, \"a\": 1\x7d" = canonicalizeJson "\x7b\"a\":1,\"b\":2\x7d" :=
  ⟨by decide, by decide, by decide,
    (canonicalizeJson_deterministic_and_fails_closed
      "\x7b\"b\": 2, \"a\": 1\x7d" "\x7b\"a\":1,\"b\":2\x7d" "not json"
      (.obj (.cons "a" (.num 1) (.cons "b" (.num 2) .nil)))
      (by decide) (by decide) (by decide)).2.1⟩

/-! ## Tool registry (package mcp, tools file with `InputSchema`)

Shallow embedding of `SecurityMetadata`, `ToolAnnotation`, `Tool`,
`ToolRegistry`, `generateSchemaFingerprint`, `generateToolChecksum`,
`RegisterTool` and `GetTool`.  The SHA-256 primitive is the stdlib
`crypto/sha256` + `encoding/hex`, external to the repository; it is
modelled as a function parameter `sha256hex : String → String` applied to
the canonical bytes. -/

structure SecurityMetadata where
  source : String
  signature : String
  publicKeyID : String
  version : String
  checksum : String
deriving DecidableEq

/-- Source: `SecurityMetadata.IsEmpty`. -/
def SecurityMetadata.IsEmpty (s : SecurityMetadata) : Bool :=
  s.source = "" && s.signature = "" && s.publicKeyID = "" && s.version = "" && s.checksum = ""

structure ToolAnnotation where
  title : String
  readOnlyHint : Bool
  destructiveHint : Bool
  idempotentHint : Bool
  openWorldHint : Bool
deriving DecidableEq

/-- Source: `Tool`.  `json.RawMessage` fields are raw text (`""` models a
nil slice); `Parameters` (a `map[string]any`) is a sorted field map. -/
structure Tool where
  name : String
  description : String
  arguments : String
  parameters : JsonFields
  inputSchema : String
  outputSchema : String
  annotations : ToolAnnotation
  securityMetadata : SecurityMetadata
deriving DecidableEq

/-- The Go zero value `Tool{}`, returned by `GetTool` alongside every
error. -/
def Tool.zero : Tool :=
  ⟨"", "", "", .nil, "", "", ⟨"", false, false, false, false⟩, ⟨"", "", "", "", ""⟩⟩

def mapLookup {α : Type} : List (String × α) → String → Option α
  | [], _ => none
  | (k, v) :: rest, name => if k = name then some v else mapLookup rest name

def mapInsert {α : Type} : List (String × α) → String → α → List (String × α)
  | [], name, v => [(name, v)]
  | (k, v') :: rest, name, v =>
    if k = name then (k, v) :: rest else (k, v') :: mapInsert rest name v

structure ToolRegistry where
  toolRepo : String
  apiKey : String
  tools : List (String × Tool)
  securityEnabled : Bool
  validateChecksums : Bool
  rejectUnsignedTools : Bool
deriving DecidableEq

/-- Source: `NewToolRegistry`. -/
def NewToolRegistry (securityEnabled : Bool) : ToolRegistry :=
  ⟨"", "", [], securityEnabled, false, false⟩

/-- Source: `SetSecurityOptions`. -/
def SetSecurityOptions (tr : ToolRegistry) (validateChecksums rejectUnsignedTools : Bool) :
    ToolRegistry :=
  { tr with validateChecksums := validateChecksums, rejectUnsignedTools := rejectUnsignedTools }

/-- `json.Marshal` of a `json.RawMessage` field value: a nil slice is
encoded as JSON `null`. -/
def rawMessage (s : String) : String := if s = "" then "null" else s

/-- Source: `generateSchemaFingerprint`: canonicalize the schema bytes
(`json.Unmarshal` of a nil/empty slice fails, so an absent schema is an
error), then hex-encoded SHA-256. -/
def generateSchemaFingerprint (sha256hex : String → String) (schema : String) :
    Except String String := do
  let canonical ← canonicalizeJson schema
  .ok (sha256hex canonical)

/-- The `json.Marshal(toolCopy)` step of `generateToolChecksum`, where
`toolCopy := Tool{Name: .., Description: .., InputSchema: ..}`: Go emits
the struct's fields in declaration order under their JSON tags; the zero
`RawMessage`/map fields marshal as `null`, the zero `Annotations` and
`SecurityMetadata` structs (all fields `omitempty`) as `{}`, and the raw
`InputSchema` bytes are spliced verbatim — `Marshal` fails if they are not
valid JSON.  Names and descriptions are escape-free in the modelled
subset. -/
def marshalToolProjection (t : Tool) : Except String String :=
  if (parseJson (rawMessage t.inputSchema)).isSome then
    .ok ("\x7b\"name\":\"" ++ t.name ++ "\",\"description\":\"" ++ t.description
      ++ "\",\"arguments\":null,\"parameters\":null,\"inputSchema\":" ++ rawMessage t.inputSchema
      ++ ",\"outputSchema\":null,\"annotations\":\x7b\x7d,\"secMetaData\":\x7b\x7d\x7d")
  else .error "json: error calling MarshalJSON"

/-- Source: `generateToolChecksum`: marshal the three-field projection,
canonicalize, hash. -/
def generateToolChecksum (sha256hex : String → String) (tool : Tool) :
    Except String String := do
  let data ← marshalToolProjection tool
  let canonical ← canonicalizeJson data
  .ok (sha256hex canonical)

/-- The `securityEnabled` block of `RegisterTool`: fill in a missing
checksum and a missing schema fingerprint, leaving non-empty stamp fields
untouched. -/
def stampTool (sha256hex : String → String) (tool : Tool) : Except String Tool := do
  let t1 ←
    if tool.securityMetadata.checksum = "" then do
      let checksum ← generateToolChecksum sha256hex tool
      .ok { tool with securityMetadata := { tool.securityMetadata with checksum := checksum } }
    else .ok tool
  if t1.securityMetadata.signature = "" then do
    let fingerprint ← generateSchemaFingerprint sha256hex t1.inputSchema
    .ok { t1 with securityMetadata := { t1.securityMetadata with signature := fingerprint } }
  else .ok t1

/-- Source: `ToolRegistry.RegisterTool` (mcp tools file): stamp when
security is enabled, then insert only if the name is not already present
(`if _, ok := tr.tools[tool.Name]; !ok`). -/
def RegisterTool (sha256hex : String → String) (tr : ToolRegistry) (tool : Tool) :
    Except String ToolRegistry := do
  let tool ← if tr.securityEnabled then stampTool sha256hex tool else .ok tool
  if (mapLookup tr.tools tool.name).isSome then .ok tr
  else .ok { tr with tools := mapInsert tr.tools tool.name tool }

/-- The final statement of `GetTool`: reject a stored tool with an empty
stamp field when `securityEnabled && rejectUnsignedTools`, otherwise
return it. -/
def rejectUnsignedGate (tr : ToolRegistry) (tool : Tool) : Tool × Option String :=
  if tr.securityEnabled && tr.rejectUnsignedTools &&
      (tool.securityMetadata.checksum = "" || tool.securityMetadata.signature = "") then
    (Tool.zero, some "unsigned tool rejected")
  else (tool, none)

/-- Source: `ToolRegistry.GetTool`: lookup, then (when
`securityEnabled && validateChecksums`) recompute checksum and schema
fingerprint and compare byte-for-byte with the stored stamp, then the
unsigned-rejection gate.  Every error path returns the zero `Tool`. -/
def GetTool (sha256hex : String → String) (tr : ToolRegistry) (name : String) :
    Tool × Option String :=
  match mapLookup tr.tools name with
  | none => (Tool.zero, some ("tool '" ++ name ++ "' not found"))
  | some tool =>
    if tr.securityEnabled && tr.validateChecksums then
      match generateToolChecksum sha256hex tool with
      | .error _ => (Tool.zero, some "failed to generate expected checksum")
      | .ok expectedChecksum =>
        if expectedChecksum ≠ tool.securityMetadata.checksum then
          (Tool.zero, some "tool checksum validation failed")
        else
          match generateSchemaFingerprint sha256hex tool.inputSchema with
          | .error _ => (Tool.zero, some "failed to generate expected signature")
          | .ok expectedSignature =>
            if expectedSignature ≠ tool.securityMetadata.signature then
              (Tool.zero, some "schema fingerprint validation failed")
            else rejectUnsignedGate tr tool
    else rejectUnsignedGate tr tool
/-- Helper: under `securityEnabled && validateChecksums`, a stored tool
whose recomputed checksum or fingerprint does not match its stamp makes
`GetTool` fail with the zero tool.  Shared by the tamper-detection and
registration-frame theorems. -/
theorem getTool_stored_mismatch_aux (h : String → String) (tr : ToolRegistry)
    (nm : String) (t : Tool)
    (hse : tr.securityEnabled = true) (hvc : tr.validateChecksums = true)
    (hlook : mapLookup tr.tools nm = some t)
    (hmis : (∃ c, generateToolChecksum h t = .ok c ∧ c ≠ t.securityMetadata.checksum) ∨
            (∃ f, generateSchemaFingerprint h t.inputSchema = .ok f ∧
              f ≠ t.securityMetadata.signature)) :
    (GetTool h tr nm).1 = Tool.zero ∧ (GetTool h tr nm).2.isSome := by
  unfold GetTool
  rw [hlook, hse, hvc]
  simp only [Bool.and_self, if_true]
  cases hc : generateToolChecksum h t with
  | error e => simp
  | ok c =>
    by_cases hcc : c = t.securityMetadata.checksum
    · rcases hmis with ⟨c', hc', hne⟩ | ⟨f, hf, hne⟩
      · rw [hc] at hc'
        cases hc'
        exact absurd hcc hne
      · rw [hf]
        simp [hcc, hne]
    · simp [hcc]
/-- C1: fail-closed tamper detection.  For every registry with
`securityEnabled` and `validateChecksums` both true and every stored tool
whose recomputed checksum or recomputed schema fingerprint differs from
the stored `SecurityMetadata.Checksum` / `.Signature`, `GetTool` returns
an error and the zero `Tool` value instead of the tool. -/
theorem getTool_tamper_rejected (sha256hex : String → String) (tr : ToolRegistry)
    (nm : String) (t : Tool)
    (hse : tr.securityEnabled = true) (hvc : tr.validateChecksums = true)
    (hlook : mapLookup tr.tools nm = some t)
    (hmis : (∃ c, generateToolChecksum sha256hex t = .ok c ∧
              c ≠ t.securityMetadata.checksum) ∨
            (∃ f, generateSchemaFingerprint sha256hex t.inputSchema = .ok f ∧
              f ≠ t.securityMetadata.signature)) :
    (GetTool sha256hex tr nm).1 = Tool.zero ∧ (GetTool sha256hex tr nm).2.isSome :=
  getTool_stored_mismatch_aux sha256hex tr nm t hse hvc hlook hmis

/-- Concrete tool whose stored stamp does not match its content: the
state reached by registering a tool and then mutating the stored
description directly, bypassing `RegisterTool` (the repository's own
`TestToolTampering` scenario). -/
def tamperTool : Tool :=
  { name := "test-tool", description := "Tampered description", arguments := "",
    parameters := .nil, inputSchema := "\x7b\"type\":\"object\"\x7d", outputSchema := "",
    annotations := ⟨"", false, false, false, false⟩,
    securityMetadata := ⟨"", "stale-fingerprint", "", "", "stale-checksum"⟩ }

def tamperReg : ToolRegistry := ⟨"", "", [("test-tool", tamperTool)], true, true, false⟩

def idHash : String → String := fun s => s

deriving instance DecidableEq for Except

set_option maxRecDepth 4096 in
theorem getTool_tamper_rejected_witness :
    tamperReg.securityEnabled = true ∧ tamperReg.validateChecksums = true ∧
    mapLookup tamperReg.tools "test-tool" = some tamperTool ∧
    (GetTool idHash tamperReg "test-tool").1 = Tool.zero ∧
    (GetTool idHash tamperReg "test-tool").2.isSome :=
  ⟨rfl, rfl, by decide,
    getTool_tamper_rejected idHash tamperReg "test-tool" tamperTool rfl rfl (by decide)
      (Or.inl ⟨(generateToolChecksum idHash tamperTool).toOption.get!, by decide, by decide⟩)⟩

/-- C3: unsigned-tool rejection.  For every registry with
`securityEnabled` and `rejectUnsignedTools` both true, a stored tool with
an empty stamp checksum or an empty stamp signature is rejected by
`GetTool` — whatever `validateChecksums` is, and for every hash function:
when checksum validation happens to pass (or is disabled), the
unsigned-tool gate still fires. -/
theorem getTool_unsigned_rejected (sha256hex : String → String) (tr : ToolRegistry)
    (nm : String) (t : Tool)
    (hse : tr.securityEnabled = true) (hru : tr.rejectUnsignedTools = true)
    (hlook : mapLookup tr.tools nm = some t)
    (hempty : t.securityMetadata.checksum = "" ∨ t.securityMetadata.signature = "") :
    (GetTool sha256hex tr nm).1 = Tool.zero ∧ (GetTool sha256hex tr nm).2.isSome := by
  have hgate : rejectUnsignedGate tr t = (Tool.zero, some "unsigned tool rejected") := by
    unfold rejectUnsignedGate
    rcases hempty with he | he <;> simp [hse, hru, he]
  unfold GetTool
  rw [hlook, hse]
  cases hvc : tr.validateChecksums with
  | false => simp [hgate]
  | true =>
    simp only [Bool.and_self, if_true]
    cases hc : generateToolChecksum sha256hex t with
    | error e => simp
    | ok c =>
      by_cases hcc : c = t.securityMetadata.checksum
      · cases hf : generateSchemaFingerprint sha256hex t.inputSchema with
        | error e => simp [hcc]
        | ok f =>
          by_cases hff : f = t.securityMetadata.signature
          · simp [hcc, hff, hgate]
          · simp [hcc, hff]
      · simp [hcc]

/-- Concrete unsigned tool: inserted with an empty checksum and signature
under a reject-unsigned registry. -/
def unsignedTool : Tool :=
  { name := "unsigned-tool", description := "no stamp", arguments := "",
    parameters := .nil, inputSchema := "\x7b\"type\":\"object\"\x7d", outputSchema := "",
    annotations := ⟨"", false, false, false, false⟩,
    securityMetadata := ⟨"", "", "", "", ""⟩ }

def unsignedRegChecked : ToolRegistry :=
  ⟨"", "", [("unsigned-tool", unsignedTool)], true, true, true⟩

def unsignedRegUnchecked : ToolRegistry :=
  ⟨"", "", [("unsigned-tool", unsignedTool)], true, false, true⟩

theorem getTool_unsigned_rejected_witness :
    unsignedTool.securityMetadata.checksum = "" ∧
    ((GetTool idHash unsignedRegChecked "unsigned-tool").2.isSome ∧
      (GetTool idHash unsignedRegUnchecked "unsigned-tool").2.isSome) :=
  ⟨rfl,
    (getTool_unsigned_rejected idHash unsignedRegChecked "unsigned-tool" unsignedTool
      rfl rfl (by decide) (Or.inl rfl)).2,
    (getTool_unsigned_rejected idHash unsignedRegUnchecked "unsigned-tool" unsignedTool
      rfl rfl (by decide) (Or.inl rfl)).2⟩
/-! ## The registry variant embedded in pkg/mcp/hash.go

The same file also carries an older copy of the registry whose `Tool` has a
single `Schema` field and whose `RegisterTool` writes
`tr.tools[tool.Name] = tool` unconditionally (overwrite on duplicate name),
unlike the mcp registry above which inserts only when the name is absent. -/

namespace PkgMcp

/-- Modelled from the spec: the `Tool` struct used by the pkg/mcp/hash.go
registry (field `Schema`, as constructed in the mcp package tests) is not
itself under src/; it is modelled as the spec's Tool restricted to the
fields this variant reads: name, description, schema, securityMetadata. -/
structure Tool where
  name : String
  description : String
  schema : String
  securityMetadata : SecurityMetadata
deriving DecidableEq

structure ToolRegistry where
  tools : List (String × Tool)
  securityEnabled : Bool
  validateChecksums : Bool
  rejectUnsignedTools : Bool
deriving DecidableEq

/-- Modelled from the spec: the `json.Marshal` of this variant's
three-field projection `Tool{Name, Description, Schema}`; the JSON tags of
the missing struct are modelled as the lower-case field names. -/
def marshalToolProjection (t : Tool) : Except String String :=
  if (parseJson (rawMessage t.schema)).isSome then
    .ok ("\x7b\"name\":\"" ++ t.name ++ "\",\"description\":\"" ++ t.description
      ++ "\",\"schema\":" ++ rawMessage t.schema ++ "\x7d")
  else .error "json: error calling MarshalJSON"

/-- Source: `generateToolChecksum` in pkg/mcp/hash.go (projection over
`Name`, `Description`, `Schema`). -/
def generateToolChecksum (sha256hex : String → String) (tool : Tool) :
    Except String String := do
  let data ← marshalToolProjection tool
  let canonical ← canonicalizeJson data
  .ok (sha256hex canonical)

/-- The `securityEnabled` block of hash.go's `RegisterTool`. -/
def stampTool (sha256hex : String → String) (tool : Tool) : Except String Tool := do
  let t1 ←
    if tool.securityMetadata.checksum = "" then do
      let checksum ← generateToolChecksum sha256hex tool
      .ok { tool with securityMetadata := { tool.securityMetadata with checksum := checksum } }
    else .ok tool
  if t1.securityMetadata.signature = "" then do
    let fingerprint ← generateSchemaFingerprint sha256hex t1.schema
    .ok { t1 with securityMetadata := { t1.securityMetadata with signature := fingerprint } }
  else .ok t1

/-- Source: `ToolRegistry.RegisterTool` in pkg/mcp/hash.go: stamp when
security is enabled, then `tr.tools[tool.Name] = tool` — an unconditional
map write, overwriting any tool already stored under that name. -/
def RegisterTool (sha256hex : String → String) (tr : ToolRegistry) (tool : Tool) :
    Except String ToolRegistry := do
  let tool ← if tr.securityEnabled then stampTool sha256hex tool else .ok tool
  .ok { tr with tools := mapInsert tr.tools tool.name tool }

end PkgMcp

theorem mapLookup_insert_self {α : Type} (l : List (String × α)) (k : String) (v : α) :
    mapLookup (mapInsert l k v) k = some v := by
  induction l with
  | nil => simp [mapInsert, mapLookup]
  | cons hd tl ih =>
    obtain ⟨k', v'⟩ := hd
    by_cases hk : k' = k
    · simp [mapInsert, mapLookup, hk]
    · simp [mapInsert, mapLookup, hk, ih]

@[simp] theorem except_ok_bind {e a b : Type} (x : a) (f : a → Except e b) :
    (Except.ok x >>= f : Except e b) = f x := rfl

@[simp] theorem except_error_bind {e a b : Type} (err : e) (f : a → Except e b) :
    (Except.error err >>= f : Except e b) = Except.error err := rfl

/-- Stamping never touches anything but the security metadata: the stored
tool keeps the caller's name, description and input schema. -/
theorem stampTool_fields (h : String → String) (t s : Tool)
    (hs : stampTool h t = .ok s) :
    s.name = t.name ∧ s.description = t.description ∧ s.inputSchema = t.inputSchema := by
  unfold stampTool at hs
  by_cases h1 : t.securityMetadata.checksum = "" <;>
      simp only [h1, ite_true, ite_false, except_ok_bind] at hs
  · cases hc : generateToolChecksum h t with
    | error e => rw [hc] at hs; simp at hs
    | ok c =>
      rw [hc] at hs
      simp only [except_ok_bind] at hs
      split at hs
      · cases hf : generateSchemaFingerprint h t.inputSchema with
        | error e => simp only [hf, except_error_bind] at hs; exact Except.noConfusion hs
        | ok f =>
          simp only [hf, except_ok_bind, Except.ok.injEq] at hs
          subst hs
          exact ⟨rfl, rfl, rfl⟩
      · simp only [Except.ok.injEq] at hs
        subst hs
        exact ⟨rfl, rfl, rfl⟩
  · split at hs
    · cases hf : generateSchemaFingerprint h t.inputSchema with
      | error e => simp only [hf, except_error_bind] at hs; exact Except.noConfusion hs
      | ok f =>
        simp only [hf, except_ok_bind, Except.ok.injEq] at hs
        subst hs
        exact ⟨rfl, rfl, rfl⟩
    · simp only [Except.ok.injEq] at hs
      subst hs
      exact ⟨rfl, rfl, rfl⟩

/-- With both stamp fields already non-empty, stamping is the identity:
`RegisterTool` neither recomputes nor checks a caller-supplied stamp. -/
theorem stampTool_noop (h : String → String) (t : Tool)
    (hc : t.securityMetadata.checksum ≠ "") (hs : t.securityMetadata.signature ≠ "") :
    stampTool h t = .ok t := by
  unfold stampTool
  simp [hc, hs]

theorem pkg_stampTool_fields (h : String → String) (t s : PkgMcp.Tool)
    (hs : PkgMcp.stampTool h t = .ok s) :
    s.name = t.name ∧ s.description = t.description ∧ s.schema = t.schema := by
  unfold PkgMcp.stampTool at hs
  by_cases h1 : t.securityMetadata.checksum = "" <;>
      simp only [h1, ite_true, ite_false, except_ok_bind] at hs
  · cases hc : PkgMcp.generateToolChecksum h t with
    | error e => rw [hc] at hs; simp at hs
    | ok c =>
      rw [hc] at hs
      simp only [except_ok_bind] at hs
      split at hs
      · cases hf : generateSchemaFingerprint h t.schema with
        | error e => simp only [hf, except_error_bind] at hs; exact Except.noConfusion hs
        | ok f =>
          simp only [hf, except_ok_bind, Except.ok.injEq] at hs
          subst hs
          exact ⟨rfl, rfl, rfl⟩
      · simp only [Except.ok.injEq] at hs
        subst hs
        exact ⟨rfl, rfl, rfl⟩
  · split at hs
    · cases hf : generateSchemaFingerprint h t.schema with
      | error e => simp only [hf, except_error_bind] at hs; exact Except.noConfusion hs
      | ok f =>
        simp only [hf, except_ok_bind, Except.ok.injEq] at hs
        subst hs
        exact ⟨rfl, rfl, rfl⟩
    · simp only [Except.ok.injEq] at hs
      subst hs
      exact ⟨rfl, rfl, rfl⟩
/-- C4 counterexample: in the mcp registry, registering two different
tools with the same name keeps the FIRST one: the second `RegisterTool`
returns without storing, so the registry does not store `t2` — the claim's
last-writer-wins fails at this input.  (Security is off, so the tools are
stored verbatim.) -/
def dupTool1 : Tool :=
  { name := "dup", description := "first registration", arguments := "", parameters := .nil,
    inputSchema := "\x7b\x7d", outputSchema := "", annotations := ⟨"", false, false, false, false⟩,
    securityMetadata := ⟨"", "", "", "", ""⟩ }

def dupTool2 : Tool :=
  { name := "dup", description := "second registration", arguments := "", parameters := .nil,
    inputSchema := "\x7b\x7d", outputSchema := "", annotations := ⟨"", false, false, false, false⟩,
    securityMetadata := ⟨"", "", "", "", ""⟩ }

def dupReg0 : ToolRegistry := ⟨"", "", [], false, false, false⟩

def dupReg1 : ToolRegistry := ⟨"", "", [("dup", dupTool1)], false, false, false⟩

theorem registerTool_last_writer_counterexample :
    RegisterTool idHash dupReg0 dupTool1 = .ok dupReg1 ∧
    RegisterTool idHash dupReg1 dupTool2 = .ok dupReg1 ∧
    dupTool1 ≠ dupTool2 ∧
    mapLookup dupReg1.tools "dup" = some dupTool1 ∧
    mapLookup dupReg1.tools "dup" ≠ some dupTool2 := by
  refine ⟨by decide, by decide, by decide, by decide, by decide⟩

/-- C4 amended: duplicate-name registration semantics, per variant.  In
the mcp registry (tools file), `RegisterTool` inserts only when the name
is absent, so after `RegisterTool(t1); RegisterTool(t2)` with equal names
the registry still stores (the stamped) `t1` and the second call changes
nothing: FIRST writer wins.  In the pkg/mcp/hash.go variant the map write
is unconditional and the stored tool is (the stamped) `t2`: there, last
writer wins as the claim states. -/
theorem registerTool_duplicate_name_amended :
    (∀ (h : String → String) (tr : ToolRegistry) (t1 t2 : Tool) (r1 r2 : ToolRegistry),
      t2.name = t1.name →
      mapLookup tr.tools t1.name = none →
      RegisterTool h tr t1 = .ok r1 →
      RegisterTool h r1 t2 = .ok r2 →
      r2 = r1 ∧ ∃ s1, mapLookup r1.tools t1.name = some s1 ∧
        s1.name = t1.name ∧ s1.description = t1.description ∧
        s1.inputSchema = t1.inputSchema) ∧
    (∀ (h : String → String) (tr : PkgMcp.ToolRegistry) (t1 t2 : PkgMcp.Tool)
        (r1 r2 : PkgMcp.ToolRegistry),
      t2.name = t1.name →
      PkgMcp.RegisterTool h tr t1 = .ok r1 →
      PkgMcp.RegisterTool h r1 t2 = .ok r2 →
      ∃ s2, mapLookup r2.tools t1.name = some s2 ∧
        s2.name = t2.name ∧ s2.description = t2.description ∧
        s2.schema = t2.schema) := by
  constructor
  · intro h tr t1 t2 r1 r2 hname hfresh hreg1 hreg2
    unfold RegisterTool at hreg1 hreg2
    cases hsec : tr.securityEnabled with
    | false =>
      rw [hsec] at hreg1
      simp only [ite_false, except_ok_bind, hfresh, Option.isSome_none] at hreg1
      simp only [Bool.false_eq_true, if_false, Except.ok.injEq] at hreg1
      have hr1sec : r1.securityEnabled = false := by rw [← hreg1]
      have hr1tools : r1.tools = mapInsert tr.tools t1.name t1 := by rw [← hreg1]
      have hlook : mapLookup r1.tools t1.name = some t1 := by
        rw [hr1tools]; exact mapLookup_insert_self tr.tools t1.name t1
      rw [hr1sec] at hreg2
      simp only [Bool.false_eq_true, if_false, except_ok_bind, hname, hlook] at hreg2
      simp only [Option.isSome_some, ite_true, Except.ok.injEq] at hreg2
      exact ⟨hreg2.symm, t1, hlook, rfl, rfl, rfl⟩
    | true =>
      rw [hsec] at hreg1
      simp only [ite_true, if_true] at hreg1
      cases hst1 : stampTool h t1 with
      | error e => rw [hst1] at hreg1; exact Except.noConfusion hreg1
      | ok s1 =>
        rw [hst1] at hreg1
        simp only [except_ok_bind] at hreg1
        obtain ⟨hs1n, hs1d, hs1i⟩ := stampTool_fields h t1 s1 hst1
        rw [hs1n, hfresh] at hreg1
        simp only [Option.isSome_none, Bool.false_eq_true, if_false, Except.ok.injEq] at hreg1
        have hr1sec : r1.securityEnabled = true := by rw [← hreg1]
        have hr1tools : r1.tools = mapInsert tr.tools t1.name s1 := by rw [← hreg1]
        have hlook : mapLookup r1.tools t1.name = some s1 := by
          rw [hr1tools]; exact mapLookup_insert_self tr.tools t1.name s1
        rw [hr1sec] at hreg2
        simp only [ite_true, if_true] at hreg2
        cases hst2 : stampTool h t2 with
        | error e => rw [hst2] at hreg2; exact Except.noConfusion hreg2
        | ok s2 =>
          rw [hst2] at hreg2
          simp only [except_ok_bind] at hreg2
          obtain ⟨hs2n, _, _⟩ := stampTool_fields h t2 s2 hst2
          rw [hs2n, hname, hlook] at hreg2
          simp only [Option.isSome_some, ite_true, Except.ok.injEq] at hreg2
          exact ⟨hreg2.symm, s1, hlook, hs1n, hs1d, hs1i⟩
  · intro h tr t1 t2 r1 r2 hname hreg1 hreg2
    unfold PkgMcp.RegisterTool at hreg2
    cases hr1sec : r1.securityEnabled with
    | false =>
      rw [hr1sec] at hreg2
      simp only [Bool.false_eq_true, if_false, except_ok_bind, Except.ok.injEq] at hreg2
      refine ⟨t2, ?_, rfl, rfl, rfl⟩
      rw [← hreg2]
      show mapLookup (mapInsert r1.tools t2.name t2) t1.name = some t2
      rw [hname]
      exact mapLookup_insert_self r1.tools t1.name t2
    | true =>
      rw [hr1sec] at hreg2
      simp only [ite_true, if_true] at hreg2
      cases hst2 : PkgMcp.stampTool h t2 with
      | error e => rw [hst2] at hreg2; exact Except.noConfusion hreg2
      | ok s2 =>
        rw [hst2] at hreg2
        simp only [except_ok_bind, Except.ok.injEq] at hreg2
        obtain ⟨hs2n, hs2d, hs2s⟩ := pkg_stampTool_fields h t2 s2 hst2
        refine ⟨s2, ?_, hs2n, hs2d, hs2s⟩
        rw [← hreg2]
        show mapLookup (mapInsert r1.tools s2.name s2) t1.name = some s2
        rw [hs2n, hname]
        exact mapLookup_insert_self r1.tools t1.name s2
def pkgDupTool1 : PkgMcp.Tool := ⟨"dup", "first registration", "\x7b\x7d", ⟨"", "", "", "", ""⟩⟩

def pkgDupTool2 : PkgMcp.Tool := ⟨"dup", "second registration", "\x7b\x7d", ⟨"", "", "", "", ""⟩⟩

def pkgDupReg0 : PkgMcp.ToolRegistry := ⟨[], false, false, false⟩

def pkgDupReg1 : PkgMcp.ToolRegistry := ⟨[("dup", pkgDupTool1)], false, false, false⟩

def pkgDupReg2 : PkgMcp.ToolRegistry := ⟨[("dup", pkgDupTool2)], false, false, false⟩

theorem registerTool_duplicate_name_amended_witness :
    (∃ s1, mapLookup dupReg1.tools "dup" = some s1 ∧
      s1.description = "first registration") ∧
    (∃ s2, mapLookup pkgDupReg2.tools "dup" = some s2 ∧
      s2.description = "second registration") := by
  constructor
  · obtain ⟨-, s1, hl, -, hd, -⟩ :=
      registerTool_duplicate_name_amended.1 idHash dupReg0 dupTool1 dupTool2 dupReg1 dupReg1
        (by decide) (by decide) (by decide) (by decide)
    exact ⟨s1, hl, hd⟩
  · obtain ⟨s2, hl, -, hd, -⟩ :=
      registerTool_duplicate_name_amended.2 idHash pkgDupReg1 pkgDupTool1 pkgDupTool2
        pkgDupReg1 pkgDupReg2 (by decide) (by decide) (by decide)
    exact ⟨s2, hl, hd⟩

/-- C10: `RegisterTool` never recomputes or verifies a caller-supplied
stamp.  A tool whose checksum and signature are non-empty on entry
(correct or not, for any hash function) is accepted without error, stored
verbatim when its name is fresh, and the result does not depend on whether
the stamp matches; an incorrect stamp is only detected by a later
`GetTool` under checksum validation. -/
theorem registerTool_no_stamp_verification (sha256hex : String → String)
    (tr : ToolRegistry) (t : Tool)
    (hc : t.securityMetadata.checksum ≠ "") (hsg : t.securityMetadata.signature ≠ "") :
    RegisterTool sha256hex tr t =
      .ok (if (mapLookup tr.tools t.name).isSome then tr
           else { tr with tools := mapInsert tr.tools t.name t }) ∧
    (∀ r, RegisterTool sha256hex tr t = .ok r → mapLookup tr.tools t.name = none →
      mapLookup r.tools t.name = some t) ∧
    (∀ r, RegisterTool sha256hex tr t = .ok r → mapLookup tr.tools t.name = none →
      tr.securityEnabled = true → tr.validateChecksums = true →
      (∃ c, generateToolChecksum sha256hex t = .ok c ∧ c ≠ t.securityMetadata.checksum) →
      (GetTool sha256hex r t.name).2.isSome) := by
  have key : RegisterTool sha256hex tr t =
      .ok (if (mapLookup tr.tools t.name).isSome then tr
           else { tr with tools := mapInsert tr.tools t.name t }) := by
    unfold RegisterTool
    cases hsec : tr.securityEnabled with
    | true =>
      rw [stampTool_noop sha256hex t hc hsg]
      by_cases hl : (mapLookup tr.tools t.name).isSome <;> simp [hl]
    | false =>
      by_cases hl : (mapLookup tr.tools t.name).isSome <;> simp [hl]
  have stored : ∀ r, RegisterTool sha256hex tr t = .ok r →
      mapLookup tr.tools t.name = none →
      r = { tr with tools := mapInsert tr.tools t.name t } := by
    intro r hr hfresh
    rw [key, hfresh] at hr
    simp only [Option.isSome_none, Bool.false_eq_true, if_false, Except.ok.injEq] at hr
    exact hr.symm
  refine ⟨key, ?_, ?_⟩
  · intro r hr hfresh
    rw [stored r hr hfresh]
    exact mapLookup_insert_self tr.tools t.name t
  · intro r hr hfresh hsec hvc hmis
    have hr' := stored r hr hfresh
    have hlook : mapLookup r.tools t.name = some t := by
      rw [hr']
      exact mapLookup_insert_self tr.tools t.name t
    have hrsec : r.securityEnabled = true := by rw [hr']; exact hsec
    have hrvc : r.validateChecksums = true := by rw [hr']; exact hvc
    exact (getTool_stored_mismatch_aux sha256hex r t.name t hrsec hrvc hlook
      (Or.inl hmis)).2

/-- Concrete tool carrying a deliberately wrong, non-empty stamp. -/
def bogusStampTool : Tool :=
  { name := "bogus", description := "stamped wrong", arguments := "", parameters := .nil,
    inputSchema := "\x7b\"type\":\"object\"\x7d", outputSchema := "",
    annotations := ⟨"", false, false, false, false⟩,
    securityMetadata := ⟨"", "not-the-real-fingerprint", "", "", "not-the-real-checksum"⟩ }

def bogusReg0 : ToolRegistry := ⟨"", "", [], true, true, false⟩

set_option maxRecDepth 4096 in
theorem registerTool_no_stamp_verification_witness :
    RegisterTool idHash bogusReg0 bogusStampTool =
      .ok { bogusReg0 with
              tools := mapInsert bogusReg0.tools bogusStampTool.name bogusStampTool } ∧
    (∀ r, RegisterTool idHash bogusReg0 bogusStampTool = .ok r →
      mapLookup r.tools "bogus" = some bogusStampTool ∧
      (GetTool idHash r "bogus").2.isSome) := by
  obtain ⟨hkey, hstore, hdetect⟩ :=
    registerTool_no_stamp_verification idHash bogusReg0 bogusStampTool
      (by decide) (by decide)
  refine ⟨by simpa using hkey, ?_⟩
  intro r hr
  exact ⟨hstore r hr rfl, hdetect r hr rfl rfl rfl
    ⟨(generateToolChecksum idHash bogusStampTool).toOption.get!, by decide, by decide⟩⟩
/-! ## Schema validators (package validate, tools file)

`gojsonschema` is an external collaborator: it is modelled as an engine
with `NewSchema` (compile schema bytes, may fail) and `Validate` (run a
document against a compiled schema, may fail to run; otherwise reports
conformance and a list of violation descriptions). -/

structure SchemaEngine where
  newSchema : String → Except String Nat
  validate : Nat → String → Except String (Bool × List String)

/-- Source: `ValidationStatus` with values `succeeded`, `failed`,
`error`. -/
inductive ValidationStatus where
  | succeeded : ValidationStatus
  | failed : ValidationStatus
  | error : ValidationStatus
deriving DecidableEq

def bulletJoin (descs : List String) : String :=
  String.intercalate "\n" (descs.map (fun d => "- " ++ d))

/-- Source: `ValidateToolInputSchema`: validate only if a schema is
provided (`len(tool.InputSchema) > 0`); schema-compile or run failure is
the `error` channel; non-conformance is `failed` with the bulleted
violation list; an absent input schema is `failed` with a descriptive
error. -/
def ValidateToolInputSchema (eng : SchemaEngine) (tool : Tool) (inputArguments : String) :
    ValidationStatus × Option String :=
  if tool.inputSchema.length > 0 then
    match eng.newSchema tool.inputSchema with
    | .error _ => (.error, some ("internal schema error for tool '" ++ tool.name ++ "'"))
    | .ok schema =>
      match eng.validate schema inputArguments with
      | .error _ =>
        (.error, some ("internal validation error for tool '" ++ tool.name ++ "'"))
      | .ok (valid, descs) =>
        if valid then (.succeeded, none)
        else
          (.failed, some ("Input validation failed for tool '" ++ tool.name ++ "':\n"
            ++ bulletJoin descs))
  else (.failed, some ("no InputSchema defined for tool '" ++ tool.name ++ "'"))

/-- Source: `ValidateToolOutput`: identical shape, but an absent output
schema skips validation entirely and the function returns `succeeded`
with a nil error. -/
def ValidateToolOutput (eng : SchemaEngine) (rawResult : String) (tool : Tool) :
    ValidationStatus × Option String :=
  if tool.outputSchema.length > 0 then
    match eng.newSchema tool.outputSchema with
    | .error _ =>
      (.error, some ("internal output schema error for tool '" ++ tool.name ++ "'"))
    | .ok schema =>
      match eng.validate schema rawResult with
      | .error _ =>
        (.error, some ("internal output validation error for tool '" ++ tool.name ++ "'"))
      | .ok (valid, descs) =>
        if valid then (.succeeded, none)
        else
          (.failed, some ("Tool '" ++ tool.name ++ "' output failed validation:\n"
            ++ bulletJoin descs ++ "\nRaw Output: " ++ rawResult))
  else (.succeeded, none)

/-- C5: asymmetric handling of a missing schema.  For every engine
behaviour, a tool with no input schema fails input validation on any
arguments with a non-nil descriptive error, while a tool with no output
schema passes output validation on any raw result with a nil error. -/
theorem validate_missing_schema_asymmetry :
    (∀ (eng : SchemaEngine) (tool : Tool) (args : String),
      tool.inputSchema = "" →
      (ValidateToolInputSchema eng tool args).1 = .failed ∧
      (ValidateToolInputSchema eng tool args).2 =
        some ("no InputSchema defined for tool '" ++ tool.name ++ "'")) ∧
    (∀ (eng : SchemaEngine) (rawResult : String) (tool : Tool),
      tool.outputSchema = "" →
      ValidateToolOutput eng rawResult tool = (.succeeded, none)) := by
  constructor
  · intro eng tool args hin
    unfold ValidateToolInputSchema
    rw [hin]
    simp
  · intro eng rawResult tool hout
    unfold ValidateToolOutput
    rw [hout]
    simp

/-- An engine that would accept anything: even under it, the missing
input schema is a failure. -/
def lenientEngine : SchemaEngine := ⟨fun _ => .ok 0, fun _ _ => .ok (true, [])⟩

def schemalessTool : Tool :=
  { name := "bare", description := "no schemas", arguments := "", parameters := .nil,
    inputSchema := "", outputSchema := "", annotations := ⟨"", false, false, false, false⟩,
    securityMetadata := ⟨"", "", "", "", ""⟩ }

theorem validate_missing_schema_asymmetry_witness :
    (ValidateToolInputSchema lenientEngine schemalessTool "\x7b\"x\":1\x7d").1 = .failed ∧
    (ValidateToolInputSchema lenientEngine schemalessTool "\x7b\"x\":1\x7d").2.isSome ∧
    ValidateToolOutput lenientEngine "\x7b\"y\":2\x7d" schemalessTool = (.succeeded, none) := by
  obtain ⟨hfail, hmsg⟩ :=
    validate_missing_schema_asymmetry.1 lenientEngine schemalessTool "\x7b\"x\":1\x7d" rfl
  exact ⟨hfail, by rw [hmsg]; exact rfl,
    validate_missing_schema_asymmetry.2 lenientEngine "\x7b\"y\":2\x7d" schemalessTool rfl⟩
/-! ## Hidden-Unicode detector (pkg/validate/text.go) -/

/-- Source: `DetectionCategory` (string constants in Go, one per
category). -/
inductive DetectionCategory where
  | TagChar : DetectionCategory
  | BidiControl : DetectionCategory
  | DeprecatedChar : DetectionCategory
  | InvisibleFmt : DetectionCategory
deriving DecidableEq

/-- Source: `DetectedCharInfo`; `index` is the UTF-8 byte offset of the
rune in the original string, as produced by Go's `range`. -/
structure DetectedCharInfo where
  rune : Char
  hex : String
  index : Nat
  category : DetectionCategory
  translated : String
deriving DecidableEq

/-- Source: `isTag`. -/
def isTag (r : Char) : Bool := 0xE0000 ≤ r.toNat && r.toNat ≤ 0xE007F

/-- Source: `isBidiControl`. -/
def isBidiControl (r : Char) : Bool :=
  (0x202A ≤ r.toNat && r.toNat ≤ 0x202E) ||
  (0x2066 ≤ r.toNat && r.toNat ≤ 0x2069) ||
  r.toNat = 0x61C

/-- Source: `isInvisibleFormatting`. -/
def isInvisibleFormatting (r : Char) : Bool :=
  r.toNat = 0x200B || r.toNat = 0x200C || r.toNat = 0x200D ||
  r.toNat = 0x2060 || r.toNat = 0xFEFF

/-- Source: `isDeprecated`: the non-character blocks, including any code
point whose low bits match `0xFFFE`/`0xFFFF`. -/
def isDeprecated (r : Char) : Bool :=
  (0xFDD0 ≤ r.toNat && r.toNat ≤ 0xFDEF) ||
  (r.toNat &&& 0xFFFE) = 0xFFFE || (r.toNat &&& 0xFFFF) = 0xFFFF

def hexDigitChar : Nat → Char
  | 0 => '0'
  | 1 => '1'
  | 2 => '2'
  | 3 => '3'
  | 4 => '4'
  | 5 => '5'
  | 6 => '6'
  | 7 => '7'
  | 8 => '8'
  | 9 => '9'
  | 10 => 'A'
  | 11 => 'B'
  | 12 => 'C'
  | 13 => 'D'
  | 14 => 'E'
  | _ => 'F'

def natToHexAux : Nat → Nat → List Char
  | 0, _ => []
  | fuel+1, n =>
    if n < 16 then [hexDigitChar n] else natToHexAux fuel (n / 16) ++ [hexDigitChar (n % 16)]

def natToHex (n : Nat) : List Char := natToHexAux (n + 1) n

/-- Models `fmt.Sprintf("U+%04X", r)`: uppercase hex, zero-padded to at
least four digits. -/
def hexUpper4 (n : Nat) : String :=
  let ds := natToHex n
  "U+" ++ ⟨List.replicate (4 - ds.length) '0' ++ ds⟩

/-- The Tag-block translation of `DetectHiddenUnicode`: printable tags
map back to ASCII, the two special tags to bracketed tokens, anything
else in the block to the empty translation. -/
def tagTranslation (r : Char) : String :=
  if 0xE0020 ≤ r.toNat && r.toNat ≤ 0xE007E then ⟨[Char.ofNat (r.toNat - 0xE0000)]⟩
  else if r.toNat = 0xE007F then "[Cancel Tag]"
  else if r.toNat = 0xE0001 then "[Start Tag]"
  else ""

/-- The Bidi-control translation switch of `DetectHiddenUnicode`. -/
def bidiTranslation (r : Char) : String :=
  if r.toNat = 0x202A then "[LRE]"
  else if r.toNat = 0x202B then "[RLE]"
  else if r.toNat = 0x202C then "[PDF]"
  else if r.toNat = 0x202D then "[LRO]"
  else if r.toNat = 0x202E then "[RLO]"
  else if r.toNat = 0x61C then "[ALM]"
  else if r.toNat = 0x2066 then "[LRI]"
  else if r.toNat = 0x2067 then "[RLI]"
  else if r.toNat = 0x2068 then "[FSI]"
  else if r.toNat = 0x2069 then "[PDI]"
  else "[Bidi]"

/-- The invisible-formatting translation switch. -/
def invisibleTranslation (r : Char) : String :=
  if r.toNat = 0x200B then "[ZWSP]"
  else if r.toNat = 0x200C then "[ZWNJ]"
  else if r.toNat = 0x200D then "[ZWJ]"
  else if r.toNat = 0x2060 then "[WJ]"
  else if r.toNat = 0xFEFF then "[ZWNBSP/BOM]"
  else "[Invisible]"

/-- The classification switch of `DetectHiddenUnicode`, in source order
(tag before bidi before invisible before deprecated); `none` means the
rune is not problematic. -/
def detectStep (r : Char) : Option (DetectionCategory × String) :=
  if isTag r then some (.TagChar, tagTranslation r)
  else if isBidiControl r then some (.BidiControl, bidiTranslation r)
  else if isInvisibleFormatting r then some (.InvisibleFmt, invisibleTranslation r)
  else if isDeprecated r then some (.DeprecatedChar, "[Deprecated/NonChar]")
  else none

/-- UTF-8 encoded size of a scalar value, to advance the byte index the
way Go's `for index, r := range text` does. -/
def utf8Size (c : Char) : Nat :=
  if c.toNat < 0x80 then 1 else if c.toNat < 0x800 then 2
  else if c.toNat < 0x10000 then 3 else 4

def detectAux : Nat → List Char → List DetectedCharInfo
  | _, [] => []
  | index, r :: rest =>
    match detectStep r with
    | some (cat, translated) =>
      ⟨r, hexUpper4 r.toNat, index, cat, translated⟩ :: detectAux (index + utf8Size r) rest
    | none => detectAux (index + utf8Size r) rest

/-- Source: `DetectHiddenUnicode`: scan the string rune by rune, record
each problematic rune with its byte offset, category and translation. -/
def DetectHiddenUnicode (text : String) : List DetectedCharInfo :=
  detectAux 0 text.data

theorem detectAux_clean (l : List Char) (i : Nat)
    (hclean : ∀ c ∈ l, detectStep c = none) : detectAux i l = [] := by
  induction l generalizing i with
  | nil => rfl
  | cons c rest ih =>
    have hc := hclean c (List.mem_cons_self c rest)
    have hrest : ∀ c' ∈ rest, detectStep c' = none := fun c' hc' =>
      hclean c' (List.mem_cons_of_mem c hc')
    unfold detectAux
    rw [hc]
    exact ih (i + utf8Size c) hrest

/-- C9: the end-to-end detection example and emptiness on clean input.
`"Hello‮WRLD"` yields exactly one detection: the RLO override at
byte offset 5, category BidiControl, translated `"[RLO]"`; and any string
none of whose code points is a tag, bidi-control, invisible-formatting or
deprecated/non-character code point yields the empty detection list. -/
theorem detectHiddenUnicode_rlo_and_clean
    (text : String)
    (hclean : ∀ c ∈ text.data, isTag c = false ∧ isBidiControl c = false ∧
      isInvisibleFormatting c = false ∧ isDeprecated c = false) :
    DetectHiddenUnicode "Hello‮WRLD" =
      [⟨'‮', "U+202E", 5, .BidiControl, "[RLO]"⟩] ∧
    DetectHiddenUnicode text = [] := by
  constructor
  · decide
  · refine detectAux_clean text.data 0 (fun c hc => ?_)
    obtain ⟨h1, h2, h3, h4⟩ := hclean c hc
    unfold detectStep
    rw [h1, h2, h3, h4]
    rfl

theorem detectHiddenUnicode_rlo_and_clean_witness :
    DetectHiddenUnicode "Hello‮WRLD" =
      [⟨'‮', "U+202E", 5, .BidiControl, "[RLO]"⟩] ∧
    DetectHiddenUnicode "Hello WRLD, all visible ASCII." = [] :=
  detectHiddenUnicode_rlo_and_clean "Hello WRLD, all visible ASCII." (by decide)
/-! ## Secure envelope (tls/sign.go)

Byte slices are `List Nat`; `[]` models a nil slice.  The stdlib
primitives (AES-GCM seal/open, HMAC-SHA256) and the JSON codec for the
payload and for the `SecuredPayload` wire structure are parameters.  Every
embedded function also returns the trace of cryptographic primitive
invocations it performed, in order, so that "before any crypto operation"
claims are statable; the `.1` projection is the Go function's result. -/

structure CryptoPrims where
  aesGcmSeal : List Nat → List Nat → List Nat → List Nat
  aesGcmOpen : List Nat → List Nat → List Nat → Option (List Nat)
  hmacSha256 : List Nat → List Nat → List Nat

inductive CryptoOp where
  | sealOp : CryptoOp
  | openOp : CryptoOp
  | hmacOp : CryptoOp
deriving DecidableEq

/-- The error sentinels of sign.go (`ErrInvalidKey`, `ErrInvalidInput`,
`ErrAuthenticationFailed`, `ErrDecryptionFailed`); wrapping with
`fmt.Errorf("..: %w", err)` preserves the sentinel, so errors are
modelled by it.  `unmarshalFailed` stands for the plain unmarshal error
of `ValidateAndOpen`'s last step. -/
inductive CryptoErr where
  | invalidKey : CryptoErr
  | invalidInput : CryptoErr
  | authFailed : CryptoErr
  | decryptFailed : CryptoErr
  | unmarshalFailed : CryptoErr
deriving DecidableEq

def AesKeySize : Nat := 32

def NonceSize : Nat := 12

structure SecuredPayload where
  nonce : List Nat
  ciphertext : List Nat
  signature : List Nat
deriving DecidableEq

/-- Source: `encrypt`: reject a key that is not 32 bytes before any
cipher work; otherwise AES-GCM-seal under a fresh random nonce (the
nonce is an explicit argument standing for `rand.Reader`'s output). -/
def encrypt (p : CryptoPrims) (plaintext key nonce : List Nat) :
    Except CryptoErr (List Nat × List Nat) × List CryptoOp :=
  if key.length ≠ AesKeySize then (.error .invalidKey, [])
  else (.ok (nonce, p.aesGcmSeal key nonce plaintext), [.sealOp])

/-- Source: `decrypt`: key-size and nonce-size checks, then AES-GCM open;
an open failure (tampering or wrong key) is the decryption-failed
error. -/
def decrypt (p : CryptoPrims) (nonce ciphertext key : List Nat) :
    Except CryptoErr (List Nat) × List CryptoOp :=
  if key.length ≠ AesKeySize then (.error .invalidKey, [])
  else if nonce.length ≠ NonceSize then (.error .invalidInput, [])
  else
    match p.aesGcmOpen key nonce ciphertext with
    | none => (.error .decryptFailed, [.openOp])
    | some plaintext => (.ok plaintext, [.openOp])

/-- Source: `signHMAC`: an empty key is rejected before the MAC is
computed. -/
def signHMAC (p : CryptoPrims) (data key : List Nat) :
    Except CryptoErr (List Nat) × List CryptoOp :=
  if key.length = 0 then (.error .invalidKey, [])
  else (.ok (p.hmacSha256 key data), [.hmacOp])

/-- Source: `verifyHMAC`: empty-key check, recompute the MAC via
`signHMAC`, constant-time comparison. -/
def verifyHMAC (p : CryptoPrims) (data receivedSignature key : List Nat) :
    Except CryptoErr Unit × List CryptoOp :=
  if key.length = 0 then (.error .invalidKey, [])
  else if receivedSignature = p.hmacSha256 key data then (.ok (), [.hmacOp])
  else (.error .authFailed, [.hmacOp])

/-- Source: `Secure`: marshal the payload, encrypt it, HMAC-sign
nonce‖ciphertext, package and marshal the `SecuredPayload`.
`marshal` models `json.Marshal` on the payload type and `encodeSP` models
`json.Marshal` of the wire structure. -/
def Secure {α : Type} (p : CryptoPrims) (marshal : α → List Nat)
    (encodeSP : SecuredPayload → List Nat)
    (data : α) (encryptionKey signingKey nonce : List Nat) :
    Except CryptoErr (List Nat) × List CryptoOp :=
  let plaintext := marshal data
  match encrypt p plaintext encryptionKey nonce with
  | (.error e, tr) => (.error e, tr)
  | (.ok (n, ciphertext), tr1) =>
    match signHMAC p (n ++ ciphertext) signingKey with
    | (.error e, tr2) => (.error e, tr1 ++ tr2)
    | (.ok signature, tr2) => (.ok (encodeSP ⟨n, ciphertext, signature⟩), tr1 ++ tr2)

/-- Source: `ValidateAndOpen`: empty-input and structural checks before
any cryptography; verify-then-decrypt (decryption is not attempted when
the signature fails); unmarshal the plaintext last.  The Go nil-presence
checks on the decoded slices are modelled by emptiness. -/
def ValidateAndOpen {α : Type} (p : CryptoPrims) (unmarshal : List Nat → Option α)
    (decodeSP : List Nat → Option SecuredPayload)
    (securedData encryptionKey signingKey : List Nat) :
    Except CryptoErr α × List CryptoOp :=
  if securedData.length = 0 then (.error .invalidInput, [])
  else
    match decodeSP securedData with
    | none => (.error .invalidInput, [])
    | some payload =>
      if payload.nonce.length ≠ NonceSize ∨ payload.ciphertext = [] ∨
          payload.signature = [] then (.error .invalidInput, [])
      else
        match verifyHMAC p (payload.nonce ++ payload.ciphertext) payload.signature
            signingKey with
        | (.error e, tr) => (.error e, tr)
        | (.ok _, tr1) =>
          match decrypt p payload.nonce payload.ciphertext encryptionKey with
          | (.error e, tr2) => (.error e, tr1 ++ tr2)
          | (.ok plaintext, tr2) =>
            match unmarshal plaintext with
            | none => (.error .unmarshalFailed, tr1 ++ tr2)
            | some out => (.ok out, tr1 ++ tr2)

/-- C7: the envelope round-trips.  For every payload, every 32-byte
encryption key, every non-empty signing key and every 12-byte nonce,
opening the sealed bytes with the same keys succeeds and returns the
original payload — given the library contracts: AES-GCM open inverts
seal, seal and HMAC produce non-empty output, and the two JSON codecs
round-trip. -/
theorem envelope_roundtrip {α : Type} (p : CryptoPrims)
    (marshal : α → List Nat) (unmarshal : List Nat → Option α)
    (encodeSP : SecuredPayload → List Nat) (decodeSP : List Nat → Option SecuredPayload)
    (data : α) (k1 k2 nonce : List Nat)
    (hk1 : k1.length = 32) (hk2 : k2 ≠ []) (hnonce : nonce.length = 12)
    (hGcm : ∀ key n pt, p.aesGcmOpen key n (p.aesGcmSeal key n pt) = some pt)
    (hSealNe : ∀ key n pt, p.aesGcmSeal key n pt ≠ [])
    (hMacNe : ∀ key d, p.hmacSha256 key d ≠ [])
    (hJson : unmarshal (marshal data) = some data)
    (hSP : ∀ sp, decodeSP (encodeSP sp) = some sp)
    (hSPne : ∀ sp, encodeSP sp ≠ []) :
    ∃ bytes,
      Secure p marshal encodeSP data k1 k2 nonce = (.ok bytes, [.sealOp, .hmacOp]) ∧
      (ValidateAndOpen p unmarshal decodeSP bytes k1 k2).1 = .ok data := by
  have hk2len : ¬ k2.length = 0 := by
    intro h
    exact hk2 (List.length_eq_zero.mp h)
  have hseal : Secure p marshal encodeSP data k1 k2 nonce =
      (.ok (encodeSP ⟨nonce, p.aesGcmSeal k1 nonce (marshal data),
        p.hmacSha256 k2 (nonce ++ p.aesGcmSeal k1 nonce (marshal data))⟩),
       [.sealOp, .hmacOp]) := by
    unfold Secure encrypt signHMAC
    rw [hk1]
    simp [hk2len, AesKeySize]
  refine ⟨_, hseal, ?_⟩
  unfold ValidateAndOpen
  have hne := hSPne ⟨nonce, p.aesGcmSeal k1 nonce (marshal data),
    p.hmacSha256 k2 (nonce ++ p.aesGcmSeal k1 nonce (marshal data))⟩
  have hlen : ¬ (encodeSP ⟨nonce, p.aesGcmSeal k1 nonce (marshal data),
      p.hmacSha256 k2 (nonce ++ p.aesGcmSeal k1 nonce (marshal data))⟩).length = 0 := by
    intro h
    exact hne (List.length_eq_zero.mp h)
  have hstruct : ¬ (nonce.length ≠ NonceSize ∨
      p.aesGcmSeal k1 nonce (marshal data) = [] ∨
      p.hmacSha256 k2 (nonce ++ p.aesGcmSeal k1 nonce (marshal data)) = []) := by
    push_neg
    exact ⟨by rw [hnonce]; rfl, hSealNe k1 nonce (marshal data),
      hMacNe k2 (nonce ++ p.aesGcmSeal k1 nonce (marshal data))⟩
  unfold verifyHMAC decrypt
  rw [if_neg hlen]
  simp only [hSP]
  rw [if_neg hstruct]
  simp [hk2len, hk1, hnonce, AesKeySize, NonceSize, hGcm, hJson]
/-- Concrete stand-in primitives satisfying the stdlib contracts: seal
appends a tag byte, open strips it, the MAC is keyed concatenation plus a
tag byte. -/
def demoPrims : CryptoPrims :=
  ⟨fun _ _ pt => pt ++ [7],
   fun _ _ ct => if ct = [] then none else some ct.dropLast,
   fun key d => key ++ d ++ [9]⟩

/-- Concrete length-prefixed wire codec for `SecuredPayload`. -/
def spEncode (sp : SecuredPayload) : List Nat :=
  sp.nonce.length ::
    (sp.nonce ++ (sp.ciphertext.length ::
      (sp.ciphertext ++ (sp.signature.length :: sp.signature))))

def spDecode : List Nat → Option SecuredPayload
  | [] => none
  | n1 :: rest =>
    match rest.drop n1 with
    | [] => none
    | n2 :: rest2 =>
      match rest2.drop n2 with
      | [] => none
      | n3 :: rest3 => some ⟨rest.take n1, rest2.take n2, rest3.take n3⟩

theorem spDecode_spEncode (sp : SecuredPayload) : spDecode (spEncode sp) = some sp := by
  obtain ⟨n, c, s⟩ := sp
  simp [spEncode, spDecode, List.take_left, List.drop_left, List.take_length]

theorem envelope_roundtrip_witness :
    ∃ bytes,
      Secure demoPrims (fun x => x) spEncode [42, 1] (List.replicate 32 0) [5]
        (List.replicate 12 0) = (.ok bytes, [.sealOp, .hmacOp]) ∧
      (ValidateAndOpen demoPrims some spDecode bytes (List.replicate 32 0) [5]).1 =
        .ok [42, 1] :=
  envelope_roundtrip demoPrims (fun x => x) some spEncode spDecode [42, 1]
    (List.replicate 32 0) [5] (List.replicate 12 0)
    (by simp) (by simp) (by simp)
    (fun key n pt => by simp [demoPrims])
    (fun key n pt => by simp [demoPrims])
    (fun key d => by simp [demoPrims])
    rfl
    spDecode_spEncode
    (fun sp => by simp [spEncode])
/-- C8 counterexample: key-size violations are NOT always rejected before
any cryptographic operation.  Sealing with a valid encryption key and an
EMPTY signing key performs the AES-GCM encryption first and only then
fails in `signHMAC` (trace `[sealOp]`, not `[]`); opening a well-formed,
correctly signed payload with a wrong-size encryption key performs the
HMAC verification first and only fails inside `decrypt` (trace
`[hmacOp]`). -/
theorem envelope_key_check_after_crypto_counterexample :
    Secure demoPrims (fun x => x) spEncode [42] (List.replicate 32 0) []
        (List.replicate 12 0) = (.error .invalidKey, [.sealOp]) ∧
    ([CryptoOp.sealOp] ≠ ([] : List CryptoOp)) ∧
    ValidateAndOpen demoPrims some spDecode
        (spEncode ⟨List.replicate 12 0, [1, 7],
          demoPrims.hmacSha256 [5] (List.replicate 12 0 ++ [1, 7])⟩)
        [3] [5] = ((.error .invalidKey : Except CryptoErr (List Nat)), [.hmacOp]) ∧
    ([CryptoOp.hmacOp] ≠ ([] : List CryptoOp)) := by
  refine ⟨by decide, by decide, by decide, by decide⟩

/-- C8 amended: each key check guards its own primitive, not the whole
call.  On the sealing path a wrong-size encryption key is rejected before
any crypto operation, but an empty signing key is only rejected after the
encryption has run (and before any HMAC); on the opening path an empty
signing key is rejected before any crypto operation, while a wrong-size
encryption key still fails the call with an error but only after HMAC
verification may have run — decryption itself is never performed. -/
theorem envelope_key_checks_amended :
    (∀ (p : CryptoPrims) (marshal : List Nat → List Nat)
        (encodeSP : SecuredPayload → List Nat) (data k1 k2 nonce : List Nat),
      k1.length ≠ 32 →
      Secure p marshal encodeSP data k1 k2 nonce = (.error .invalidKey, [])) ∧
    (∀ (p : CryptoPrims) (marshal : List Nat → List Nat)
        (encodeSP : SecuredPayload → List Nat) (data k1 nonce : List Nat),
      k1.length = 32 →
      Secure p marshal encodeSP data k1 [] nonce = (.error .invalidKey, [.sealOp])) ∧
    (∀ (p : CryptoPrims) (unmarshal : List Nat → Option (List Nat))
        (decodeSP : List Nat → Option SecuredPayload) (securedData k1 : List Nat),
      (∃ e, (ValidateAndOpen p unmarshal decodeSP securedData k1 []).1 = .error e) ∧
      (ValidateAndOpen p unmarshal decodeSP securedData k1 []).2 = []) ∧
    (∀ (p : CryptoPrims) (unmarshal : List Nat → Option (List Nat))
        (decodeSP : List Nat → Option SecuredPayload) (securedData k1 k2 : List Nat),
      k1.length ≠ 32 →
      (∃ e, (ValidateAndOpen p unmarshal decodeSP securedData k1 k2).1 = .error e) ∧
      CryptoOp.openOp ∉ (ValidateAndOpen p unmarshal decodeSP securedData k1 k2).2) := by
  refine ⟨?_, ?_, ?_, ?_⟩
  · intro p marshal encodeSP data k1 k2 nonce hk1
    unfold Secure encrypt
    simp [AesKeySize, hk1]
  · intro p marshal encodeSP data k1 nonce hk1
    unfold Secure encrypt signHMAC
    simp [AesKeySize, hk1]
  · intro p unmarshal decodeSP securedData k1
    unfold ValidateAndOpen
    by_cases h0 : securedData.length = 0
    · simp [h0]
    · simp only [h0, ite_false, if_neg]
      cases hd : decodeSP securedData with
      | none => simp
      | some payload =>
        by_cases hstruct : payload.nonce.length ≠ NonceSize ∨ payload.ciphertext = [] ∨
            payload.signature = []
        · simp [hstruct]
        · unfold verifyHMAC
          simp [hstruct]
  · intro p unmarshal decodeSP securedData k1 k2 hk1
    unfold ValidateAndOpen
    by_cases h0 : securedData.length = 0
    · simp [h0]
    · simp only [h0, ite_false, if_neg]
      cases hd : decodeSP securedData with
      | none => simp
      | some payload =>
        by_cases hstruct : payload.nonce.length ≠ NonceSize ∨ payload.ciphertext = [] ∨
            payload.signature = []
        · simp [hstruct]
        · unfold verifyHMAC decrypt
          by_cases hk2 : k2.length = 0
          · simp [hstruct, hk2]
          · by_cases hsig : payload.signature =
                p.hmacSha256 k2 (payload.nonce ++ payload.ciphertext)
            · simp only [hstruct, hk2, hsig, AesKeySize, hk1, ite_false]
              split <;> simp
            · simp [hstruct, hk2, hsig]

theorem envelope_key_checks_amended_witness :
    Secure demoPrims (fun x => x) spEncode [42] [1, 2] [5] (List.replicate 12 0) =
      (.error .invalidKey, []) ∧
    Secure demoPrims (fun x => x) spEncode [42] (List.replicate 32 0) []
      (List.replicate 12 0) = (.error .invalidKey, [.sealOp]) ∧
    (ValidateAndOpen demoPrims some spDecode [9, 9] (List.replicate 32 0) []).2 = [] ∧
    CryptoOp.openOp ∉ (ValidateAndOpen demoPrims some spDecode
      (spEncode ⟨List.replicate 12 0, [1, 7],
        demoPrims.hmacSha256 [5] (List.replicate 12 0 ++ [1, 7])⟩) [3] [5]).2 :=
  ⟨envelope_key_checks_amended.1 demoPrims (fun x => x) spEncode [42] [1, 2] [5]
      (List.replicate 12 0) (by decide),
   envelope_key_checks_amended.2.1 demoPrims (fun x => x) spEncode [42]
      (List.replicate 32 0) (List.replicate 12 0) (by decide),
   (envelope_key_checks_amended.2.2.1 demoPrims some spDecode [9, 9]
      (List.replicate 32 0)).2,
   (envelope_key_checks_amended.2.2.2 demoPrims some spDecode
      (spEncode ⟨List.replicate 12 0, [1, 7],
        demoPrims.hmacSha256 [5] (List.replicate 12 0 ++ [1, 7])⟩) [3] [5]
      (by decide)).2⟩
/-! ## C2: what the tool checksum depends on -/

/-- Two tools identical except for the textual form of `inputSchema`: the
same schema with reordered keys and different whitespace. -/
def reordTool1 : Tool :=
  { name := "w", description := "d", arguments := "", parameters := .nil,
    inputSchema := "\x7b\"a\":1,\"b\":2\x7d", outputSchema := "",
    annotations := ⟨"", false, false, false, false⟩,
    securityMetadata := ⟨"", "", "", "", ""⟩ }

def reordTool2 : Tool :=
  { reordTool1 with inputSchema := "\x7b\"b\": 2, \"a\": 1\x7d" }

set_option maxRecDepth 8192 in
/-- C2 counterexample: changing `inputSchema` does NOT always change the
checksum.  `reordTool1` and `reordTool2` differ in `inputSchema` (byte
for byte), yet their marshalled projections canonicalize to the same
bytes, so `generateToolChecksum` returns the same value — the
canonicalization step erases key order and whitespace before hashing, and
this holds before the hash is even applied. -/
theorem toolChecksum_inputSchema_reorder_counterexample :
    reordTool1.inputSchema ≠ reordTool2.inputSchema ∧
    (∃ d1 d2, marshalToolProjection reordTool1 = .ok d1 ∧
      marshalToolProjection reordTool2 = .ok d2 ∧
      canonicalizeJson d1 = canonicalizeJson d2) ∧
    generateToolChecksum idHash reordTool1 = generateToolChecksum idHash reordTool2 ∧
    (∃ c, generateToolChecksum idHash reordTool1 = .ok c) := by
  refine ⟨by decide, ⟨_, _, rfl, rfl, by decide⟩, by decide, ⟨_, rfl⟩⟩

/-- The checksum projection ignores every field other than name,
description and inputSchema. -/
theorem toolChecksum_projection_only (h : String → String) (t1 t2 : Tool)
    (hn : t1.name = t2.name) (hd : t1.description = t2.description)
    (hi : t1.inputSchema = t2.inputSchema) :
    generateToolChecksum h t1 = generateToolChecksum h t2 := by
  unfold generateToolChecksum marshalToolProjection
  rw [hn, hd, hi]
/-! ### Order lemmas for the key comparison -/

theorem char_eq_of_toNat_eq {a b : Char} (h : a.toNat = b.toNat) : a = b :=
  Char.eq_of_val_eq (UInt32.ext h)

theorem charListLt_irrefl (l : List Char) : charListLt l l = false := by
  induction l with
  | nil => rfl
  | cons c cs ih =>
    simp only [charListLt, charLt, decide_eq_true_eq]
    split_ifs with h1 <;> first | omega | exact ih

theorem charListLt_asymm (a : List Char) :
    ∀ b, charListLt a b = true → charListLt b a = false := by
  induction a with
  | nil =>
    intro b h
    cases b with
    | nil => exact absurd h (by simp [charListLt])
    | cons d ds => rfl
  | cons c cs ih =>
    intro b h
    cases b with
    | nil => exact absurd h (by simp [charListLt])
    | cons d ds =>
      revert h
      simp only [charListLt, charLt, decide_eq_true_eq]
      intro h
      split_ifs at h ⊢ <;>
        first | rfl | omega | exact ih ds h
  
theorem charListLt_trans (a : List Char) :
    ∀ b c, charListLt a b = true → charListLt b c = true → charListLt a c = true := by
  induction a with
  | nil =>
    intro b c h1 h2
    cases b with
    | nil => exact h2
    | cons d ds =>
      cases c with
      | nil => exact absurd h2 (by simp [charListLt])
      | cons e es => rfl
  | cons x xs ih =>
    intro b c h1 h2
    cases b with
    | nil => exact absurd h1 (by simp [charListLt])
    | cons d ds =>
      cases c with
      | nil => exact absurd h2 (by simp [charListLt])
      | cons e es =>
        revert h1 h2
        simp only [charListLt, charLt, decide_eq_true_eq]
        intro h1 h2
        split_ifs at h1 h2 ⊢ <;>
          first
            | rfl
            | omega
            | exact ih ds es h1 h2

theorem strLt_asymm {a b : String} (h : strLt a b = true) : strLt b a = false :=
  charListLt_asymm a.data b.data h

theorem strLt_trans {a b c : String} (h1 : strLt a b = true) (h2 : strLt b c = true) :
    strLt a c = true :=
  charListLt_trans a.data b.data c.data h1 h2

theorem strLt_ne {a b : String} (h : strLt a b = true) : a ≠ b := by
  intro heq
  subst heq
  exact absurd h (by simp [strLt, charListLt_irrefl])
/-! ### Structural induction principles for the field and element spines -/

@[induction_eliminator]
theorem JsonFields.fieldsInduction {P : JsonFields → Prop} (nil : P .nil)
    (cons : ∀ (k : String) (v : Json) (tl : JsonFields), P tl → P (.cons k v tl)) :
    ∀ fs, P fs
  | .nil => nil
  | .cons k v tl => cons k v tl (JsonFields.fieldsInduction nil cons tl)

@[induction_eliminator]
theorem JsonList.listInduction {P : JsonList → Prop} (nil : P .nil)
    (cons : ∀ (v : Json) (tl : JsonList), P tl → P (.cons v tl)) :
    ∀ xs, P xs
  | .nil => nil
  | .cons v tl => cons v tl (JsonList.listInduction nil cons tl)

/-! ### Sorted field lists and the `mkObj` identity -/

def headKeyLt (k : String) : JsonFields → Bool
  | .nil => true
  | .cons k' _ _ => strLt k k'

/-- Strictly sorted (hence duplicate-free) keys, the shape `json.Marshal`
emits for a map. -/
def JsonFields.sortedKeys : JsonFields → Bool
  | .nil => true
  | .cons k _ tl => headKeyLt k tl && tl.sortedKeys

def keysBelow : JsonFields → String → Bool
  | .nil, _ => true
  | .cons k _ tl, key => strLt k key && keysBelow tl key

def keyBelowAll (k : String) : JsonFields → Bool
  | .nil => true
  | .cons k' _ tl => strLt k k' && keyBelowAll k tl

def JsonFields.catFields : JsonFields → JsonFields → JsonFields
  | .nil, gs => gs
  | .cons k v tl, gs => .cons k v (tl.catFields gs)

def belowAll : JsonFields → JsonFields → Bool
  | _, .nil => true
  | acc, .cons k _ tl => keysBelow acc k && belowAll acc tl

theorem catFields_nil (fs : JsonFields) : fs.catFields .nil = fs := by
  induction fs with
  | nil => rfl
  | cons k v tl ih => simp [JsonFields.catFields, ih]

theorem catFields_assoc (a b c : JsonFields) :
    (a.catFields b).catFields c = a.catFields (b.catFields c) := by
  induction a with
  | nil => rfl
  | cons k v tl ih => simp [JsonFields.catFields, ih]

theorem insert_eq_append (acc : JsonFields) (k : String) (v : Json)
    (h : keysBelow acc k = true) :
    acc.insert k v = acc.catFields (.cons k v .nil) := by
  induction acc with
  | nil => rfl
  | cons k' v' tl ih =>
    simp only [keysBelow, Bool.and_eq_true] at h
    obtain ⟨hlt, hbelow⟩ := h
    have hne : ¬ (k = k') := fun heq => strLt_ne hlt heq.symm
    simp only [JsonFields.insert, JsonFields.catFields, hne, ite_false, if_neg]
    rw [strLt_asymm hlt]
    simp [ih hbelow]

theorem keysBelow_cat (a b : JsonFields) (key : String) :
    keysBelow (a.catFields b) key = (keysBelow a key && keysBelow b key) := by
  induction a with
  | nil => simp [JsonFields.catFields, keysBelow]
  | cons k v tl ih => simp [JsonFields.catFields, keysBelow, ih, Bool.and_assoc]

theorem keyBelowAll_of_sorted (tl : JsonFields) :
    ∀ k, tl.sortedKeys = true → headKeyLt k tl = true → keyBelowAll k tl = true := by
  induction tl with
  | nil => intro k _ _; rfl
  | cons k' v' tl' ih =>
    intro k hsorted hhead
    simp only [JsonFields.sortedKeys, Bool.and_eq_true] at hsorted
    obtain ⟨hk', hsorted'⟩ := hsorted
    simp only [headKeyLt] at hhead
    simp only [keyBelowAll, Bool.and_eq_true]
    refine ⟨hhead, ih k hsorted' ?_⟩
    cases tl' with
    | nil => rfl
    | cons k'' v'' tl'' =>
      simp only [headKeyLt] at hk' ⊢
      exact strLt_trans hhead hk'

theorem belowAll_extend (acc tl : JsonFields) (k : String) (v : Json)
    (h1 : belowAll acc tl = true) (h2 : keyBelowAll k tl = true) :
    belowAll (acc.catFields (.cons k v .nil)) tl = true := by
  induction tl with
  | nil => rfl
  | cons k' v' tl' ih =>
    simp only [belowAll, Bool.and_eq_true] at h1 ⊢
    simp only [keyBelowAll, Bool.and_eq_true] at h2
    refine ⟨?_, ih h1.2 h2.2⟩
    rw [keysBelow_cat]
    simp [h1.1, keysBelow, h2.1]

theorem mkObjAux_cat (fs : JsonFields) :
    ∀ acc, fs.sortedKeys = true → belowAll acc fs = true →
      mkObjAux acc fs = acc.catFields fs := by
  induction fs with
  | nil => intro acc _ _; exact (catFields_nil acc).symm
  | cons k v tl ih =>
    intro acc hsorted hbelow
    simp only [JsonFields.sortedKeys, Bool.and_eq_true] at hsorted
    simp only [belowAll, Bool.and_eq_true] at hbelow
    unfold mkObjAux
    rw [insert_eq_append acc k v hbelow.1]
    rw [ih (acc.catFields (.cons k v .nil)) hsorted.2
      (belowAll_extend acc tl k v hbelow.2
        (keyBelowAll_of_sorted tl k hsorted.2 hsorted.1))]
    rw [catFields_assoc]
    rfl

theorem belowAll_nil (fs : JsonFields) : belowAll .nil fs = true := by
  induction fs with
  | nil => rfl
  | cons k v tl ih => simp [belowAll, keysBelow, ih]

/-- Re-inserting an already strictly sorted field list into a fresh map
reproduces it unchanged. -/
theorem mkObj_sorted (fs : JsonFields) (h : fs.sortedKeys = true) : mkObj fs = fs := by
  unfold mkObj
  rw [mkObjAux_cat fs .nil h (belowAll_nil fs)]
  rfl
/-! ### Canonical values: the exact image of the serializer on decoded
maps — sorted object keys, escape-free strings. -/

def plainStr (s : String) : Bool := s.data.all (fun c => !(c == '"'))

mutual

def Json.canon : Json → Bool
  | .null => true
  | .bool _ => true
  | .num _ => true
  | .str s => plainStr s
  | .arr elems => elems.canonElems
  | .obj fields => fields.sortedKeys && fields.canonFields

def JsonList.canonElems : JsonList → Bool
  | .nil => true
  | .cons v tl => v.canon && tl.canonElems

def JsonFields.canonFields : JsonFields → Bool
  | .nil => true
  | .cons k v tl => plainStr k && v.canon && tl.canonFields

end

/-! ### Decimal digits -/

def headNotDigit : List Char → Bool
  | [] => true
  | c :: _ => !c.isDigit

theorem digitChar_isDigit {d : Nat} (h : d < 10) : (digitChar d).isDigit = true := by
  interval_cases d <;> decide

theorem digitChar_toNat {d : Nat} (h : d < 10) : (digitChar d).toNat = 48 + d := by
  interval_cases d <;> decide

theorem natToDigitsAux_ne_nil (fuel : Nat) :
    ∀ n, n < fuel → natToDigitsAux fuel n ≠ [] := by
  induction fuel with
  | zero => intro n h; omega
  | succ f ih =>
    intro n h
    unfold natToDigitsAux
    by_cases h10 : n < 10
    · simp [h10]
    · simp only [h10, ite_false, if_neg]
      simp

theorem natToDigitsAux_digits (fuel : Nat) :
    ∀ n, n < fuel → ∀ c ∈ natToDigitsAux fuel n, c.isDigit = true := by
  induction fuel with
  | zero => intro n h; omega
  | succ f ih =>
    intro n h c hc
    unfold natToDigitsAux at hc
    by_cases h10 : n < 10
    · simp [h10] at hc
      subst hc
      exact digitChar_isDigit h10
    · simp only [h10, ite_false, if_neg, List.mem_append, List.mem_singleton] at hc
      rcases hc with hc | hc
      · have hdiv : n / 10 < f := by
          have h1 : n / 10 < n := Nat.div_lt_self (by omega) (by omega)
          omega
        exact ih (n / 10) hdiv c hc
      · subst hc
        exact digitChar_isDigit (Nat.mod_lt n (by omega))

theorem digitsToNat_append_single (l : List Char) (c : Char) :
    digitsToNat (l ++ [c]) = 10 * digitsToNat l + (c.toNat - 48) := by
  unfold digitsToNat
  rw [List.foldl_append]
  rfl

theorem natToDigitsAux_val (fuel : Nat) :
    ∀ n, n < fuel → digitsToNat (natToDigitsAux fuel n) = n := by
  induction fuel with
  | zero => intro n h; omega
  | succ f ih =>
    intro n h
    unfold natToDigitsAux
    by_cases h10 : n < 10
    · simp only [h10, ite_true, if_pos]
      show digitsToNat ([] ++ [digitChar n]) = n
      rw [digitsToNat_append_single]
      simp [digitsToNat, digitChar_toNat h10]
    · simp only [h10, ite_false, if_neg]
      rw [digitsToNat_append_single]
      have hdiv : n / 10 < f := by
        have h1 : n / 10 < n := Nat.div_lt_self (by omega) (by omega)
        omega
      rw [ih (n / 10) hdiv, digitChar_toNat (Nat.mod_lt n (by omega))]
      omega

theorem natToDigitsAux_head (fuel : Nat) :
    ∀ n, n < fuel → ∃ d ds, natToDigitsAux fuel n = digitChar d :: ds ∧ d < 10 := by
  induction fuel with
  | zero => intro n h; omega
  | succ f ih =>
    intro n h
    unfold natToDigitsAux
    by_cases h10 : n < 10
    · exact ⟨n, [], by simp [h10], h10⟩
    · simp only [h10, ite_false, if_neg]
      have hdiv : n / 10 < f := by
        have h1 : n / 10 < n := Nat.div_lt_self (by omega) (by omega)
        omega
      obtain ⟨d, ds, heq, hd⟩ := ih (n / 10) hdiv
      exact ⟨d, ds ++ [digitChar (n % 10)], by rw [heq]; rfl, hd⟩

theorem takeDigits_spec (ds : List Char) :
    ∀ rest, (∀ c ∈ ds, c.isDigit = true) → headNotDigit rest = true →
      takeDigits (ds ++ rest) = (ds, rest) := by
  induction ds with
  | nil =>
    intro rest _ hrest
    cases rest with
    | nil => rfl
    | cons c cs =>
      simp only [headNotDigit, Bool.not_eq_true'] at hrest
      simp [takeDigits, hrest]
  | cons d ds' ih =>
    intro rest hds hrest
    have hd : d.isDigit = true := hds d (List.mem_cons_self d ds')
    simp only [List.cons_append, takeDigits, hd, ite_true, if_pos]
    simp [ih rest (fun c hc => hds c (List.mem_cons_of_mem d hc)) hrest]
theorem parseNumber_digits (m : Nat) (rest : List Char) (hrest : headNotDigit rest = true) :
    parseNumber (natToDigits m ++ rest) = some ((m : Int), rest) := by
  obtain ⟨d, ds, heq0, hd⟩ := natToDigitsAux_head (m + 1) m (Nat.lt_succ_self m)
  have heq : natToDigits m = digitChar d :: ds := heq0
  have htake : takeDigits (natToDigits m ++ rest) = (natToDigits m, rest) :=
    takeDigits_spec (natToDigits m) rest
      (natToDigitsAux_digits (m + 1) m (Nat.lt_succ_self m)) hrest
  have hval : digitsToNat (natToDigits m) = m :=
    natToDigitsAux_val (m + 1) m (Nat.lt_succ_self m)
  have hne : digitChar d ≠ '-' := by
    have hdig := digitChar_isDigit hd
    intro hcontra
    rw [hcontra] at hdig
    exact Bool.noConfusion hdig
  rw [heq, List.cons_append]
  unfold parseNumber
  split
  · rename_i x cs2 heq2
    injection heq2 with h1 _
    exact absurd h1 hne
  · rw [← List.cons_append, ← heq, htake, heq]
    show some ((digitsToNat (digitChar d :: ds) : Int), rest) = some ((m : Int), rest)
    rw [← heq, hval]

theorem parseNumber_int (n : Int) (rest : List Char) (hrest : headNotDigit rest = true) :
    parseNumber ((intToString n).data ++ rest) = some (n, rest) := by
  by_cases hneg : n < 0
  · unfold intToString
    simp only [hneg, ite_true, if_pos]
    have hdata : (("-" : String) ++ (⟨natToDigits (-n).toNat⟩ : String)).data
        = '-' :: natToDigits (-n).toNat := by
      simp [String.data_append]
    rw [hdata, List.cons_append]
    have htake : takeDigits (natToDigits (-n).toNat ++ rest) = (natToDigits (-n).toNat, rest) :=
      takeDigits_spec (natToDigits (-n).toNat) rest
        (natToDigitsAux_digits _ _ (Nat.lt_succ_self _)) hrest
    have hval : digitsToNat (natToDigits (-n).toNat) = (-n).toNat :=
      natToDigitsAux_val _ _ (Nat.lt_succ_self _)
    obtain ⟨d, ds, heq0, hd⟩ := natToDigitsAux_head ((-n).toNat + 1) (-n).toNat
      (Nat.lt_succ_self _)
    have heq : natToDigits (-n).toNat = digitChar d :: ds := heq0
    unfold parseNumber
    split
    · rename_i x cs2 heq2
      injection heq2 with _ h2
      rw [← h2, htake, heq]
      show some (-(digitsToNat (digitChar d :: ds) : Int), rest) = some (n, rest)
      rw [← heq, hval]
      congr 1
      congr 1
      omega
    · rename_i x hno
      exact absurd rfl (fun heq2 => hno (natToDigits (-n).toNat ++ rest) heq2)
  · unfold intToString
    simp only [hneg, ite_false, if_neg]
    rw [parseNumber_digits n.toNat rest hrest]
    congr 2
    omega
theorem plainStr_spec {s : String} (h : plainStr s = true) :
    ∀ c ∈ s.data, (c == '"') = false := by
  intro c hc
  have := List.all_eq_true.mp h c hc
  simpa using this

theorem scanString_plain (l : List Char) :
    ∀ rest, (∀ c ∈ l, (c == '"') = false) → scanString (l ++ '"' :: rest) = some (l, rest) := by
  induction l with
  | nil => intro rest _; simp [scanString]
  | cons c cs ih =>
    intro rest hplain
    have hc : (c == '"') = false := hplain c (List.mem_cons_self c cs)
    have hcne : ¬ (c = '"') := by simpa using hc
    simp only [List.cons_append, scanString, hcne, ite_false, if_neg, List.append_eq]
    rw [ih rest (fun c' hc' => hplain c' (List.mem_cons_of_mem c hc'))]

theorem skipWs_cons {c : Char} (cs : List Char) (h : isWsChar c = false) :
    skipWs (c :: cs) = c :: cs := by
  simp [skipWs, h]

theorem intToString_len_pos (n : Int) : 1 ≤ (intToString n).data.length := by
  unfold intToString
  by_cases h : n < 0
  · simp [h, String.data_append]
  · simp only [h, ite_false, if_neg]
    have hne := natToDigitsAux_ne_nil (n.toNat + 1) n.toNat (Nat.lt_succ_self _)
    show 1 ≤ (natToDigits n.toNat).length
    exact List.length_pos.mpr hne

/-! ### Fuel accounting for the parser -/

mutual

def Json.fuelNeeded : Json → Nat
  | .null => 1
  | .bool _ => 1
  | .num _ => 1
  | .str _ => 1
  | .arr elems => elems.fuelElems + 1
  | .obj fields => fields.fuelFields + 1

def JsonList.fuelElems : JsonList → Nat
  | .nil => 0
  | .cons v tl => v.fuelNeeded + tl.fuelElems + 1

def JsonFields.fuelFields : JsonFields → Nat
  | .nil => 0
  | .cons _ v tl => v.fuelNeeded + tl.fuelFields + 1

end

mutual

theorem fuelNeeded_le : (v : Json) → v.fuelNeeded ≤ 2 * v.serialize.data.length
  | .null => by simp [Json.fuelNeeded, Json.serialize]
  | .bool b => by cases b <;> simp [Json.fuelNeeded, Json.serialize]
  | .num n => by
    have := intToString_len_pos n
    simp only [Json.fuelNeeded, Json.serialize]
    omega
  | .str s => by
    have h1 : (("\"" : String)).data.length = 1 := rfl
    simp only [Json.fuelNeeded, Json.serialize, String.data_append, List.length_append, h1]
    omega
  | .arr elems => by
    have h := fuelElems_le elems
    simp only [Json.fuelNeeded, Json.serialize, String.data_append, List.length_append,
      List.length_cons, List.length_nil]
    omega
  | .obj fields => by
    have h := fuelFields_le fields
    simp only [Json.fuelNeeded, Json.serialize, String.data_append, List.length_append,
      List.length_cons, List.length_nil]
    omega

theorem fuelElems_le : (xs : JsonList) → xs.fuelElems ≤ 2 * xs.serializeElems.data.length + 1
  | .nil => by simp [JsonList.fuelElems]
  | .cons v .nil => by
    have h := fuelNeeded_le v
    simp only [JsonList.fuelElems, JsonList.serializeElems]
    omega
  | .cons v (.cons w tl) => by
    have h1 := fuelNeeded_le v
    have h2 := fuelElems_le (JsonList.cons w tl)
    simp only [JsonList.fuelElems, JsonList.serializeElems, String.data_append,
      List.length_append, List.length_cons, List.length_nil] at h2 ⊢
    omega

theorem fuelFields_le : (fs : JsonFields) → fs.fuelFields ≤ 2 * fs.serializeFields.data.length + 1
  | .nil => by simp [JsonFields.fuelFields]
  | .cons k v .nil => by
    have h := fuelNeeded_le v
    simp only [JsonFields.fuelFields, JsonFields.serializeFields, String.data_append,
      List.length_append, List.length_cons, List.length_nil]
    omega
  | .cons k v (.cons k' v' tl) => by
    have h1 := fuelNeeded_le v
    have h2 := fuelFields_le (JsonFields.cons k' v' tl)
    simp only [JsonFields.fuelFields, JsonFields.serializeFields, String.data_append,
      List.length_append, List.length_cons, List.length_nil] at h2 ⊢
    omega

end
theorem fuelNeeded_pos (v : Json) : 1 ≤ v.fuelNeeded := by
  cases v <;> simp [Json.fuelNeeded]

theorem digitChar_plain {d : Nat} (h : d < 10) :
    isWsChar (digitChar d) = false ∧ digitChar d ≠ ']' ∧ digitChar d ≠ '}' := by
  interval_cases d <;> exact ⟨by decide, by decide, by decide⟩

/-- Head shape of any serialized value: a non-whitespace character that is
neither a closing bracket nor a closing brace. -/
theorem serialize_head (v : Json) :
    ∃ c t, v.serialize.data = c :: t ∧ isWsChar c = false ∧ c ≠ ']' ∧ c ≠ '}' := by
  cases v with
  | null => exact ⟨'n', ['u', 'l', 'l'], rfl, by decide, by decide, by decide⟩
  | bool b =>
    cases b with
    | true => exact ⟨'t', ['r', 'u', 'e'], rfl, by decide, by decide, by decide⟩
    | false => exact ⟨'f', ['a', 'l', 's', 'e'], rfl, by decide, by decide, by decide⟩
  | num n =>
    show ∃ c t, (intToString n).data = c :: t ∧ _
    unfold intToString
    by_cases hneg : n < 0
    · refine ⟨'-', natToDigits (-n).toNat, ?_, by decide, by decide, by decide⟩
      simp [hneg, String.data_append]
    · obtain ⟨d, ds, heq, hd⟩ := natToDigitsAux_head (n.toNat + 1) n.toNat (Nat.lt_succ_self _)
      obtain ⟨h1, h2, h3⟩ := digitChar_plain hd
      refine ⟨digitChar d, ds, ?_, h1, h2, h3⟩
      simp only [hneg, ite_false, if_neg]
      exact heq
  | str s =>
    refine ⟨'"', s.data ++ ['"'], ?_, by decide, by decide, by decide⟩
    simp [Json.serialize, String.data_append]
  | arr elems =>
    refine ⟨'[', elems.serializeElems.data ++ [']'], ?_, by decide, by decide, by decide⟩
    simp [Json.serialize, String.data_append]
  | obj fields =>
    refine ⟨'{', fields.serializeFields.data ++ ['}'], ?_, by decide, by decide, by decide⟩
    simp [Json.serialize, String.data_append]

theorem parseVal_succ_num (f : Nat) (n : Int) (rest : List Char)
    (hrest : headNotDigit rest = true) :
    parseVal (f + 1) ((intToString n).data ++ rest) = some (.num n, rest) := by
  have hnum := parseNumber_int n rest hrest
  by_cases hneg : n < 0
  · have hdata : (intToString n).data = '-' :: natToDigits (-n).toNat := by
      unfold intToString
      simp [hneg, String.data_append]
    rw [hdata] at hnum ⊢
    rw [List.cons_append] at hnum ⊢
    calc parseVal (f + 1) ('-' :: (natToDigits (-n).toNat ++ rest))
        = (match parseNumber ('-' :: (natToDigits (-n).toNat ++ rest)) with
            | some (m, r) => some (Json.num m, r)
            | none => none) := rfl
      _ = some (.num n, rest) := by rw [hnum]
  · have hdata : (intToString n).data = natToDigits n.toNat := by
      unfold intToString
      simp [hneg]
    rw [hdata] at hnum ⊢
    obtain ⟨d, ds, heq, hd⟩ := natToDigitsAux_head (n.toNat + 1) n.toNat (Nat.lt_succ_self _)
    have heq' : natToDigits n.toNat = digitChar d :: ds := heq
    rw [heq'] at hnum ⊢
    rw [List.cons_append] at hnum ⊢
    interval_cases d <;>
      simp only [digitChar] at hnum ⊢ <;>
      · calc parseVal (f + 1) (_ :: (ds ++ rest))
            = (match parseNumber (_ :: (ds ++ rest)) with
                | some (m, r) => some (Json.num m, r)
                | none => none) := rfl
          _ = some (.num n, rest) := by rw [hnum]
/-- Parse inverts serialization: parsing the serialized form of a
canonical value (with enough fuel) returns exactly that value and leaves
the rest of the input untouched.  Canonicity is the exact image of the
decoder: sorted object keys and escape-free strings. -/
theorem roundtrip_all : ∀ fuel : Nat,
    (∀ (v : Json) (rest : List Char), v.canon = true → v.fuelNeeded ≤ fuel →
      headNotDigit rest = true →
      parseVal fuel (v.serialize.data ++ rest) = some (v, rest)) ∧
    (∀ (xs : JsonList) (rest : List Char), xs.canonElems = true → xs ≠ .nil →
      xs.fuelElems ≤ fuel →
      parseElems fuel (xs.serializeElems.data ++ ']' :: rest) = some (xs, rest)) ∧
    (∀ (fs : JsonFields) (rest : List Char), fs.canonFields = true → fs ≠ .nil →
      fs.fuelFields ≤ fuel →
      parseFields fuel (fs.serializeFields.data ++ '}' :: rest) = some (fs, rest)) := by
  intro fuel
  induction fuel with
  | zero =>
    refine ⟨fun v rest _ hf _ => ?_, fun xs rest _ hne hf => ?_, fun fs rest _ hne hf => ?_⟩
    · have := fuelNeeded_pos v
      omega
    · cases xs with
      | nil => exact absurd rfl hne
      | cons v tl =>
        simp only [JsonList.fuelElems] at hf
        omega
    · cases fs with
      | nil => exact absurd rfl hne
      | cons k v tl =>
        simp only [JsonFields.fuelFields] at hf
        omega
  | succ f ih =>
    obtain ⟨ihv, ihe, ihf⟩ := ih
    refine ⟨?_, ?_, ?_⟩
    · intro v rest hcanon hfuel hrest
      cases v with
      | null => rfl
      | bool b => cases b <;> rfl
      | num n => exact parseVal_succ_num f n rest hrest
      | str s =>
        have hplain : ∀ c ∈ s.data, (c == '"') = false :=
          plainStr_spec (by simpa [Json.canon] using hcanon)
        have hdata : (Json.str s).serialize.data ++ rest = '"' :: (s.data ++ ('"' :: rest)) := by
          simp [Json.serialize, String.data_append]
        rw [hdata]
        rw [show parseVal (f + 1) ('"' :: (s.data ++ ('"' :: rest)))
            = (match scanString (s.data ++ '"' :: rest) with
                | some (s', r) => some (Json.str ⟨s'⟩, r)
                | none => none) from rfl]
        rw [scanString_plain s.data rest hplain]
      | arr elems =>
        cases elems with
        | nil => rfl
        | cons v tl =>
          have hcanonE : (JsonList.cons v tl).canonElems = true := by
            simpa [Json.canon] using hcanon
          have hfuelE : (JsonList.cons v tl).fuelElems ≤ f := by
            simp only [Json.fuelNeeded] at hfuel
            omega
          obtain ⟨c, t, hhead, hws, hnotB, hnotBr⟩ := serialize_head v
          have hheadE : ∃ t2, (JsonList.cons v tl).serializeElems.data = c :: t2 := by
            cases tl with
            | nil => exact ⟨t, hhead⟩
            | cons w tw =>
              refine ⟨t ++ (',' :: (JsonList.cons w tw).serializeElems.data), ?_⟩
              show ((v.serialize ++ "," ++ (JsonList.cons w tw).serializeElems)).data = _
              simp [String.data_append, hhead]
          obtain ⟨t2, hheadE⟩ := hheadE
          have hdata : (Json.arr (.cons v tl)).serialize.data ++ rest
              = '[' :: ((JsonList.cons v tl).serializeElems.data ++ (']' :: rest)) := by
            simp [Json.serialize, String.data_append]
          rw [hdata]
          rw [show parseVal (f + 1)
              ('[' :: ((JsonList.cons v tl).serializeElems.data ++ (']' :: rest)))
              = (match skipWs ((JsonList.cons v tl).serializeElems.data ++ (']' :: rest)) with
                  | ']' :: rest' => some (Json.arr .nil, rest')
                  | rest' =>
                    match parseElems f rest' with
                    | some (elems, rest'') => some (Json.arr elems, rest'')
                    | none => none) from rfl]
          rw [hheadE, List.cons_append, skipWs_cons _ hws]
          split
          · rename_i r heq
            injection heq with h1 _
            exact absurd h1 hnotB
          · rw [← List.cons_append, ← hheadE,
              ihe (JsonList.cons v tl) rest hcanonE (by simp) hfuelE]
      | obj fields =>
        cases fields with
        | nil => rfl
        | cons k v tl =>
          have hsorted : (JsonFields.cons k v tl).sortedKeys = true := by
            have := hcanon
            simp only [Json.canon, Bool.and_eq_true] at this
            exact this.1
          have hcanonF : (JsonFields.cons k v tl).canonFields = true := by
            have := hcanon
            simp only [Json.canon, Bool.and_eq_true] at this
            exact this.2
          have hfuelF : (JsonFields.cons k v tl).fuelFields ≤ f := by
            simp only [Json.fuelNeeded] at hfuel
            omega
          have hheadF : ∃ t2, (JsonFields.cons k v tl).serializeFields.data = '"' :: t2 := by
            cases tl with
            | nil =>
              refine ⟨k.data ++ (("\":" : String).data ++ v.serialize.data), ?_⟩
              show (("\"" ++ k ++ "\":" ++ v.serialize)).data = _
              simp [String.data_append]
            | cons k' v' tw =>
              refine ⟨k.data ++ (("\":" : String).data ++ (v.serialize.data
                ++ (("," : String).data ++ (JsonFields.cons k' v' tw).serializeFields.data))), ?_⟩
              show (("\"" ++ k ++ "\":" ++ v.serialize ++ ","
                ++ (JsonFields.cons k' v' tw).serializeFields)).data = _
              simp [String.data_append]
          obtain ⟨t2, hheadF⟩ := hheadF
          have hdata : (Json.obj (.cons k v tl)).serialize.data ++ rest
              = '{' :: ((JsonFields.cons k v tl).serializeFields.data ++ ('}' :: rest)) := by
            simp [Json.serialize, String.data_append]
          rw [hdata]
          rw [show parseVal (f + 1)
              ('{' :: ((JsonFields.cons k v tl).serializeFields.data ++ ('}' :: rest)))
              = (match skipWs ((JsonFields.cons k v tl).serializeFields.data ++ ('}' :: rest)) with
                  | '}' :: rest' => some (Json.obj .nil, rest')
                  | rest' =>
                    match parseFields f rest' with
                    | some (fields, rest'') => some (Json.obj (mkObj fields), rest'')
                    | none => none) from rfl]
          rw [hheadF, List.cons_append, skipWs_cons _ (by decide)]
          split
          · rename_i r heq
            injection heq with h1 _
            exact absurd h1 (by decide)
          · rw [← List.cons_append, ← hheadF,
              ihf (JsonFields.cons k v tl) rest hcanonF (by simp) hfuelF]
            show some (Json.obj (mkObj (JsonFields.cons k v tl)), rest)
              = some (Json.obj (JsonFields.cons k v tl), rest)
            rw [mkObj_sorted _ hsorted]
    · intro xs rest hcanon hne hfuel
      cases xs with
      | nil => exact absurd rfl hne
      | cons v tl =>
        have hcv : v.canon = true ∧ tl.canonElems = true := by
          simpa [JsonList.canonElems] using hcanon
        cases tl with
        | nil =>
          have hv := ihv v (']' :: rest) hcv.1
            (by simp only [JsonList.fuelElems] at hfuel; omega) rfl
          rw [show (JsonList.cons v .nil).serializeElems.data = v.serialize.data from rfl]
          rw [show parseElems (f + 1) (v.serialize.data ++ ']' :: rest)
              = (match parseVal f (v.serialize.data ++ ']' :: rest) with
                  | none => none
                  | some (w, r) =>
                    match skipWs r with
                    | ',' :: rest' =>
                      match parseElems f rest' with
                      | some (vs, rest'') => some (JsonList.cons w vs, rest'')
                      | none => none
                    | ']' :: rest' => some (JsonList.cons w .nil, rest')
                    | _ => none) from rfl]
          rw [hv]
          rfl
        | cons w tw =>
          have hdata : (JsonList.cons v (.cons w tw)).serializeElems.data ++ ']' :: rest
              = v.serialize.data ++ (',' :: ((JsonList.cons w tw).serializeElems.data
                ++ ']' :: rest)) := by
            show ((v.serialize ++ "," ++ (JsonList.cons w tw).serializeElems)).data ++ _ = _
            simp [String.data_append]
          have hv := ihv v (',' :: ((JsonList.cons w tw).serializeElems.data ++ ']' :: rest))
            hcv.1 (by simp only [JsonList.fuelElems] at hfuel; omega) rfl
          have hrec := ihe (JsonList.cons w tw) rest hcv.2 (by simp)
            (by simp only [JsonList.fuelElems] at hfuel ⊢; omega)
          rw [hdata]
          rw [show parseElems (f + 1) (v.serialize.data
              ++ (',' :: ((JsonList.cons w tw).serializeElems.data ++ ']' :: rest)))
              = (match parseVal f (v.serialize.data
                  ++ (',' :: ((JsonList.cons w tw).serializeElems.data ++ ']' :: rest))) with
                  | none => none
                  | some (x, r) =>
                    match skipWs r with
                    | ',' :: rest' =>
                      match parseElems f rest' with
                      | some (vs, rest'') => some (JsonList.cons x vs, rest'')
                      | none => none
                    | ']' :: rest' => some (JsonList.cons x .nil, rest')
                    | _ => none) from rfl]
          rw [hv]
          show (match skipWs (',' :: ((JsonList.cons w tw).serializeElems.data ++ ']' :: rest)) with
              | ',' :: rest' =>
                match parseElems f rest' with
                | some (vs, rest'') => some (JsonList.cons v vs, rest'')
                | none => none
              | ']' :: rest' => some (JsonList.cons v .nil, rest')
              | _ => none) = some (JsonList.cons v (.cons w tw), rest)
          show (match parseElems f ((JsonList.cons w tw).serializeElems.data ++ ']' :: rest) with
              | some (vs, rest'') => some (JsonList.cons v vs, rest'')
              | none => none) = some (JsonList.cons v (.cons w tw), rest)
          rw [hrec]
    · intro fs rest hcanon hne hfuel
      cases fs with
      | nil => exact absurd rfl hne
      | cons k v tl =>
        have hck : (plainStr k = true ∧ v.canon = true) ∧ tl.canonFields = true := by
          simpa [JsonFields.canonFields] using hcanon
        have hkplain := plainStr_spec hck.1.1
        cases tl with
        | nil =>
          have hdata : (JsonFields.cons k v .nil).serializeFields.data ++ '}' :: rest
              = '"' :: (k.data ++ ('"' :: ':' :: (v.serialize.data ++ '}' :: rest))) := by
            show (("\"" ++ k ++ "\":" ++ v.serialize)).data ++ _ = _
            simp [String.data_append]
          have hv := ihv v ('}' :: rest) hck.1.2
            (by simp only [JsonFields.fuelFields] at hfuel; omega) rfl
          rw [hdata]
          rw [show parseFields (f + 1)
              ('"' :: (k.data ++ ('"' :: ':' :: (v.serialize.data ++ '}' :: rest))))
              = (match scanString (k.data ++ ('"' :: ':' :: (v.serialize.data ++ '}' :: rest))) with
                  | none => none
                  | some (kk, rest1) =>
                    match skipWs rest1 with
                    | ':' :: rest2 =>
                      match parseVal f rest2 with
                      | none => none
                      | some (vv, rest3) =>
                        match skipWs rest3 with
                        | ',' :: rest4 =>
                          match parseFields f rest4 with
                          | some (ffs, rest5) => some (JsonFields.cons ⟨kk⟩ vv ffs, rest5)
                          | none => none
                        | '}' :: rest4 => some (JsonFields.cons ⟨kk⟩ vv .nil, rest4)
                        | _ => none
                    | _ => none) from rfl]
          rw [show k.data ++ ('"' :: ':' :: (v.serialize.data ++ '}' :: rest))
              = k.data ++ '"' :: (':' :: (v.serialize.data ++ '}' :: rest)) from rfl]
          rw [scanString_plain k.data _ hkplain]
          show (match skipWs (':' :: (v.serialize.data ++ '}' :: rest)) with
              | ':' :: rest2 =>
                match parseVal f rest2 with
                | none => none
                | some (vv, rest3) =>
                  match skipWs rest3 with
                  | ',' :: rest4 =>
                    match parseFields f rest4 with
                    | some (ffs, rest5) => some (JsonFields.cons ⟨k.data⟩ vv ffs, rest5)
                    | none => none
                  | '}' :: rest4 => some (JsonFields.cons ⟨k.data⟩ vv .nil, rest4)
                  | _ => none
              | _ => none) = some (JsonFields.cons k v .nil, rest)
          show (match parseVal f (v.serialize.data ++ '}' :: rest) with
              | none => none
              | some (vv, rest3) =>
                match skipWs rest3 with
                | ',' :: rest4 =>
                  match parseFields f rest4 with
                  | some (ffs, rest5) => some (JsonFields.cons ⟨k.data⟩ vv ffs, rest5)
                  | none => none
                | '}' :: rest4 => some (JsonFields.cons ⟨k.data⟩ vv .nil, rest4)
                | _ => none) = some (JsonFields.cons k v .nil, rest)
          rw [hv]
          rfl
        | cons k' v' tw =>
          have hdata : (JsonFields.cons k v (.cons k' v' tw)).serializeFields.data ++ '}' :: rest
              = '"' :: (k.data ++ ('"' :: ':' :: (v.serialize.data
                ++ ',' :: ((JsonFields.cons k' v' tw).serializeFields.data ++ '}' :: rest)))) := by
            show (("\"" ++ k ++ "\":" ++ v.serialize ++ ","
              ++ (JsonFields.cons k' v' tw).serializeFields)).data ++ _ = _
            simp [String.data_append]
          have hv := ihv v (',' :: ((JsonFields.cons k' v' tw).serializeFields.data ++ '}' :: rest))
            hck.1.2 (by simp only [JsonFields.fuelFields] at hfuel; omega) rfl
          have hrec := ihf (JsonFields.cons k' v' tw) rest hck.2 (by simp)
            (by simp only [JsonFields.fuelFields] at hfuel ⊢; omega)
          rw [hdata]
          rw [show parseFields (f + 1)
              ('"' :: (k.data ++ ('"' :: ':' :: (v.serialize.data
                ++ ',' :: ((JsonFields.cons k' v' tw).serializeFields.data ++ '}' :: rest)))))
              = (match scanString (k.data ++ ('"' :: ':' :: (v.serialize.data
                  ++ ',' :: ((JsonFields.cons k' v' tw).serializeFields.data ++ '}' :: rest)))) with
                  | none => none
                  | some (kk, rest1) =>
                    match skipWs rest1 with
                    | ':' :: rest2 =>
                      match parseVal f rest2 with
                      | none => none
                      | some (vv, rest3) =>
                        match skipWs rest3 with
                        | ',' :: rest4 =>
                          match parseFields f rest4 with
                          | some (ffs, rest5) => some (JsonFields.cons ⟨kk⟩ vv ffs, rest5)
                          | none => none
                        | '}' :: rest4 => some (JsonFields.cons ⟨kk⟩ vv .nil, rest4)
                        | _ => none
                    | _ => none) from rfl]
          rw [show k.data ++ ('"' :: ':' :: (v.serialize.data
              ++ ',' :: ((JsonFields.cons k' v' tw).serializeFields.data ++ '}' :: rest)))
              = k.data ++ '"' :: (':' :: (v.serialize.data
                ++ ',' :: ((JsonFields.cons k' v' tw).serializeFields.data ++ '}' :: rest)))
              from rfl]
          rw [scanString_plain k.data _ hkplain]
          show (match skipWs (':' :: (v.serialize.data
              ++ ',' :: ((JsonFields.cons k' v' tw).serializeFields.data ++ '}' :: rest))) with
              | ':' :: rest2 =>
                match parseVal f rest2 with
                | none => none
                | some (vv, rest3) =>
                  match skipWs rest3 with
                  | ',' :: rest4 =>
                    match parseFields f rest4 with
                    | some (ffs, rest5) => some (JsonFields.cons ⟨k.data⟩ vv ffs, rest5)
                    | none => none
                  | '}' :: rest4 => some (JsonFields.cons ⟨k.data⟩ vv .nil, rest4)
                  | _ => none
              | _ => none) = some (JsonFields.cons k v (.cons k' v' tw), rest)
          show (match parseVal f (v.serialize.data
              ++ ',' :: ((JsonFields.cons k' v' tw).serializeFields.data ++ '}' :: rest)) with
              | none => none
              | some (vv, rest3) =>
                match skipWs rest3 with
                | ',' :: rest4 =>
                  match parseFields f rest4 with
                  | some (ffs, rest5) => some (JsonFields.cons ⟨k.data⟩ vv ffs, rest5)
                  | none => none
                | '}' :: rest4 => some (JsonFields.cons ⟨k.data⟩ vv .nil, rest4)
                | _ => none)
              = some (JsonFields.cons k v (.cons k' v' tw), rest)
          rw [hv]
          show (match parseFields f ((JsonFields.cons k' v' tw).serializeFields.data
              ++ '}' :: rest) with
              | some (ffs, rest5) => some (JsonFields.cons ⟨k.data⟩ v ffs, rest5)
              | none => none)
              = some (JsonFields.cons k v (.cons k' v' tw), rest)
          rw [hrec]
theorem serialize_ne_empty (v : Json) : v.serialize ≠ "" := by
  obtain ⟨c, t, hhead, -, -, -⟩ := serialize_head v
  intro heq
  rw [heq] at hhead
  exact List.noConfusion hhead

/-- Decoding inverts encoding on canonical values. -/
theorem parseJson_serialize (v : Json) (h : v.canon = true) :
    parseJson v.serialize = some v := by
  unfold parseJson
  have hfuel : v.fuelNeeded ≤ 2 * v.serialize.length + 2 := by
    have := fuelNeeded_le v
    show v.fuelNeeded ≤ 2 * v.serialize.data.length + 2
    omega
  have hrt := (roundtrip_all (2 * v.serialize.length + 2)).1 v [] h hfuel rfl
  rw [List.append_nil] at hrt
  rw [hrt]
  rfl

/-- The serializer is injective on canonical values. -/
theorem serialize_inj {v1 v2 : Json} (h1 : v1.canon = true) (h2 : v2.canon = true)
    (heq : v1.serialize = v2.serialize) : v1 = v2 := by
  have p1 := parseJson_serialize v1 h1
  have p2 := parseJson_serialize v2 h2
  rw [heq] at p1
  rw [p1] at p2
  exact Option.some.inj p2

theorem serializeFields_head (k : String) (v : Json) (tl : JsonFields) :
    ∃ t2, (JsonFields.cons k v tl).serializeFields.data = '"' :: t2 := by
  cases tl with
  | nil =>
    refine ⟨k.data ++ (("\":" : String).data ++ v.serialize.data), ?_⟩
    show (("\"" ++ k ++ "\":" ++ v.serialize)).data = _
    simp [String.data_append]
  | cons k' v' tw =>
    refine ⟨k.data ++ (("\":" : String).data ++ (v.serialize.data
      ++ (("," : String).data ++ (JsonFields.cons k' v' tw).serializeFields.data))), ?_⟩
    show (("\"" ++ k ++ "\":" ++ v.serialize ++ ","
      ++ (JsonFields.cons k' v' tw).serializeFields)).data = _
    simp [String.data_append]

/-- Decoding the serialization of an object with arbitrary field order
(plain keys, canonical values) yields its map form. -/
theorem parseJson_serialize_obj (fs : JsonFields) (h : fs.canonFields = true)
    (hne : fs ≠ .nil) :
    parseJson (Json.obj fs).serialize = some (.obj (mkObj fs)) := by
  obtain ⟨k, v, tl, rfl⟩ : ∃ k v tl, fs = JsonFields.cons k v tl := by
    cases fs with
    | nil => exact absurd rfl hne
    | cons k v tl => exact ⟨k, v, tl, rfl⟩
  unfold parseJson
  have hdata : (Json.obj (.cons k v tl)).serialize.data
      = '{' :: ((JsonFields.cons k v tl).serializeFields.data ++ ('}' :: [])) := by
    simp [Json.serialize, String.data_append]
  have hfuelF : (JsonFields.cons k v tl).fuelFields ≤ 2 * (Json.obj (.cons k v tl)).serialize.length + 1 := by
    have h1 := fuelFields_le (JsonFields.cons k v tl)
    have h2 : (Json.obj (.cons k v tl)).serialize.length
        = (JsonFields.cons k v tl).serializeFields.data.length + 2 := by
      show (Json.obj (.cons k v tl)).serialize.data.length = _
      rw [hdata]
      simp
    omega
  have hrec := (roundtrip_all (2 * (Json.obj (.cons k v tl)).serialize.length + 1)).2.2
    (JsonFields.cons k v tl) [] h (by simp) hfuelF
  obtain ⟨t2, hheadF⟩ := serializeFields_head k v tl
  have hinner : (match skipWs ((JsonFields.cons k v tl).serializeFields.data ++ ('}' :: [])) with
      | '}' :: rest' => some (Json.obj .nil, rest')
      | rest' =>
        match parseFields (2 * (Json.obj (.cons k v tl)).serialize.length + 1) rest' with
        | some (fields, rest'') => some (Json.obj (mkObj fields), rest'')
        | none => none) = some (Json.obj (mkObj (JsonFields.cons k v tl)), []) := by
    rw [hheadF, List.cons_append, skipWs_cons _ (by decide)]
    split
    · rename_i r heq
      injection heq with hc _
      exact absurd hc (by decide)
    · rw [← List.cons_append, ← hheadF, hrec]
  rw [show (2 * (Json.obj (.cons k v tl)).serialize.length + 2)
      = (2 * (Json.obj (.cons k v tl)).serialize.length + 1) + 1 from rfl]
  rw [hdata]
  rw [show parseVal ((2 * (Json.obj (.cons k v tl)).serialize.length + 1) + 1)
      ('{' :: ((JsonFields.cons k v tl).serializeFields.data ++ ('}' :: [])))
      = (match skipWs ((JsonFields.cons k v tl).serializeFields.data ++ ('}' :: [])) with
          | '}' :: rest' => some (Json.obj .nil, rest')
          | rest' =>
            match parseFields (2 * (Json.obj (.cons k v tl)).serialize.length + 1) rest' with
            | some (fields, rest'') => some (Json.obj (mkObj fields), rest'')
            | none => none) from rfl]
  rw [hinner]
  rfl
/-- The checksum projection document, as a JSON value in Go's struct
field order. -/
def goFields (name description : String) (schema : Json) : JsonFields :=
  .cons "name" (.str name) (.cons "description" (.str description) (.cons "arguments" .null
    (.cons "parameters" .null (.cons "inputSchema" schema (.cons "outputSchema" .null
      (.cons "annotations" (.obj .nil) (.cons "secMetaData" (.obj .nil) .nil)))))))

/-- The same document with its keys in canonical (sorted) order. -/
def sortedProjFields (name description : String) (schema : Json) : JsonFields :=
  .cons "annotations" (.obj .nil) (.cons "arguments" .null (.cons "description" (.str description)
    (.cons "inputSchema" schema (.cons "name" (.str name) (.cons "outputSchema" .null
      (.cons "parameters" .null (.cons "secMetaData" (.obj .nil) .nil)))))))

theorem mkObj_goFields (name description : String) (schema : Json) :
    mkObj (goFields name description schema) = sortedProjFields name description schema := rfl

theorem marshalProjection_ok (t : Tool) (w : Json) (hw : w.canon = true)
    (hs : t.inputSchema = w.serialize) :
    marshalToolProjection t = .ok ((Json.obj (goFields t.name t.description w)).serialize) := by
  have hraw : rawMessage t.inputSchema = w.serialize := by
    rw [hs]
    unfold rawMessage
    simp [serialize_ne_empty w]
  have hparse : parseJson (rawMessage t.inputSchema) = some w := by
    rw [hraw]
    exact parseJson_serialize w hw
  unfold marshalToolProjection
  rw [hparse]
  simp only [Option.isSome_some, ite_true, if_pos, Except.ok.injEq]
  apply String.ext
  rw [hraw]
  simp [Json.serialize, JsonFields.serializeFields, goFields, String.data_append]

theorem canon_sortedProj (name description : String) (schema : Json)
    (hn : plainStr name = true) (hd : plainStr description = true)
    (hw : schema.canon = true) :
    (Json.obj (sortedProjFields name description schema)).canon = true := by
  have hn' : ∀ c ∈ name.data, ¬ c = '"' := fun c hc => by
    simpa using plainStr_spec hn c hc
  have hd' : ∀ c ∈ description.data, ¬ c = '"' := fun c hc => by
    simpa using plainStr_spec hd c hc
  simp only [Json.canon, sortedProjFields, Bool.and_eq_true]
  constructor
  · rfl
  · simp [JsonFields.canonFields, Json.canon, hw, plainStr, hn', hd',
      JsonFields.sortedKeys]
    exact ⟨hd', hn'⟩

theorem canonFields_goFields (name description : String) (schema : Json)
    (hn : plainStr name = true) (hd : plainStr description = true)
    (hw : schema.canon = true) :
    (goFields name description schema).canonFields = true := by
  have hn' : ∀ c ∈ name.data, ¬ c = '"' := fun c hc => by
    simpa using plainStr_spec hn c hc
  have hd' : ∀ c ∈ description.data, ¬ c = '"' := fun c hc => by
    simpa using plainStr_spec hd c hc
  simp [goFields, JsonFields.canonFields, Json.canon, hw, plainStr, hn', hd',
    JsonFields.sortedKeys]
  exact ⟨hn', hd'⟩

/-- Under the canonical-schema hypotheses, the checksum is the hash of
the serialized sorted projection document. -/
theorem generateToolChecksum_canonical (h : String → String) (t : Tool) (w : Json)
    (hn : plainStr t.name = true) (hd : plainStr t.description = true)
    (hw : w.canon = true) (hs : t.inputSchema = w.serialize) :
    generateToolChecksum h t =
      .ok (h ((Json.obj (sortedProjFields t.name t.description w)).serialize)) := by
  unfold generateToolChecksum
  rw [marshalProjection_ok t w hw hs]
  simp only [except_ok_bind]
  unfold canonicalizeJson
  rw [parseJson_serialize_obj (goFields t.name t.description w)
    (canonFields_goFields t.name t.description w hn hd hw) (by simp [goFields])]
  rw [mkObj_goFields]
  rfl

/-- A concrete canonical schema value and a pair of tools that differ only
in `name`, used to instantiate the amended C2 theorem. -/
def cksSchema : Json := .obj (.cons "a" (.num 1) .nil)

def cksTool1 : Tool :=
  { name := "n1", description := "d", arguments := "", parameters := .nil,
    inputSchema := cksSchema.serialize, outputSchema := "",
    annotations := ⟨"", false, false, false, false⟩,
    securityMetadata := ⟨"", "", "", "", ""⟩ }

def cksTool2 : Tool := { cksTool1 with name := "n2" }

/-- C2 (amended): the tool checksum depends on exactly the canonical
projection (name, description, parsed inputSchema).  First conjunct: for a
collision-free hash and tools whose schemas are serialized canonical
values, the checksums agree exactly when name, description and the parsed
schema value agree — so changing any of the three changes the checksum,
and nothing else can.  Second conjunct: for every hash and any two tools
agreeing byte-for-byte on name, description and inputSchema, the
checksums agree, whatever the remaining fields (outputSchema, annotations,
arguments, parameters, securityMetadata) hold. -/
theorem toolChecksum_canonical_dependence_amended
    (h : String → String) (hinj : Function.Injective h)
    (t1 t2 : Tool) (w1 w2 : Json)
    (hn1 : plainStr t1.name = true) (hd1 : plainStr t1.description = true)
    (hw1 : w1.canon = true) (hs1 : t1.inputSchema = w1.serialize)
    (hn2 : plainStr t2.name = true) (hd2 : plainStr t2.description = true)
    (hw2 : w2.canon = true) (hs2 : t2.inputSchema = w2.serialize) :
    (generateToolChecksum h t1 = generateToolChecksum h t2 ↔
      (t1.name = t2.name ∧ t1.description = t2.description ∧ w1 = w2)) ∧
    (∀ (g : String → String) (u1 u2 : Tool),
      u1.name = u2.name → u1.description = u2.description →
      u1.inputSchema = u2.inputSchema →
      generateToolChecksum g u1 = generateToolChecksum g u2) := by
  constructor
  · constructor
    · intro he
      rw [generateToolChecksum_canonical h t1 w1 hn1 hd1 hw1 hs1,
          generateToolChecksum_canonical h t2 w2 hn2 hd2 hw2 hs2] at he
      have hser := hinj (Except.ok.inj he)
      have hobj := serialize_inj
        (canon_sortedProj t1.name t1.description w1 hn1 hd1 hw1)
        (canon_sortedProj t2.name t2.description w2 hn2 hd2 hw2) hser
      simp only [sortedProjFields, Json.obj.injEq, JsonFields.cons.injEq,
        Json.str.injEq, true_and, and_true] at hobj
      exact ⟨hobj.2.2, hobj.1, hobj.2.1⟩
    · rintro ⟨hn, hd, hw⟩
      apply toolChecksum_projection_only h t1 t2 hn hd
      rw [hs1, hs2, hw]
  · intro g u1 u2 hn hd hi
    exact toolChecksum_projection_only g u1 u2 hn hd hi

/-- Witness: for the identity hash and two concrete tools that differ only
in `name`, the amended theorem applies and the checksums differ. -/
theorem toolChecksum_canonical_dependence_amended_witness :
    (generateToolChecksum idHash cksTool1 = generateToolChecksum idHash cksTool2 ↔
      (cksTool1.name = cksTool2.name ∧ cksTool1.description = cksTool2.description ∧
        cksSchema = cksSchema)) ∧
    generateToolChecksum idHash cksTool1 ≠ generateToolChecksum idHash cksTool2 := by
  have h := toolChecksum_canonical_dependence_amended idHash (fun a b hab => hab)
    cksTool1 cksTool2 cksSchema cksSchema
    (by decide) (by decide) (by decide) rfl
    (by decide) (by decide) (by decide) rfl
  exact ⟨h.1, fun he => absurd (h.1.mp he).1 (by decide)⟩
